import Mathlib

/-!
Verification of the tile-parallel sparsity/coordinate structure of the
nonblocking backend (`include/graphblas/nonblocking/coordinates.hpp`,
class `Coordinates< nonblocking >`).

The C++ class is shallowly embedded: the presence array `_assigned` and the
compacted stack `_stack` are total functions `Nat → Bool` / `Nat → Nat`
(caller-supplied memory), `_n` and `_cap` are naturals, and the per-tile
scratch segments carved out of `_buffer` are explicit per-tile slots.  Loops
are translated as left folds over index ranges.  The tiling parameters
normally supplied by `AnalyticModel` (whose implementation is outside the
sources at hand) appear as explicit parameters `ts` (tile size) and `T`
(number of tiles).
-/

namespace NB

/-- Pointwise array update `f[i] := v`, the denotation of a single store. -/
def upd {α : Type} (f : Nat → α) (i : Nat) (v : α) : Nat → α :=
  fun j => if j = i then v else f j

theorem upd_same {α : Type} (f : Nat → α) (i : Nat) (v : α) : upd f i v i = v := by
  simp [upd]

theorem upd_other {α : Type} (f : Nat → α) (i j : Nat) (v : α) (h : j ≠ i) :
    upd f i v j = f j := by
  simp [upd, h]

/-- Evaluation of a left fold of stores whose stored value depends only on the
written index: the last store at `j` wins, and every store at `j` writes
`h j`. -/
theorem foldl_upd_eval {α : Type} (h : Nat → α) (l : List Nat) (g0 : Nat → α) (j : Nat) :
    (l.foldl (fun g i => upd g i (h i)) g0) j = if j ∈ l then h j else g0 j := by
  induction l generalizing g0 with
  | nil => simp
  | cons a t ih =>
      simp only [List.foldl_cons, ih, List.mem_cons]
      by_cases hj : j ∈ t
      · simp [hj]
      · by_cases hja : j = a
        · subst hja; simp [hj, upd_same]
        · simp [hj, hja, upd_other _ _ _ _ hja]

/-- The sparsity structure: `_cap`, `_n`, `_assigned`, `_stack` of
`Coordinates< nonblocking >`.  `assigned` and `stack` model the raw
caller-supplied arrays; only `assigned i` for `i < cap` and `stack k` for
`k < n` are meaningful. -/
structure Coordinates where
  cap : Nat
  n : Nat
  assigned : Nat → Bool
  stack : Nat → Nat

/-- The contents `_stack[0 .. _n)` of the compacted stack. -/
def stackList (c : Coordinates) : List Nat :=
  (List.range c.n).map c.stack

/-- `Coordinates::assign`: returns whether `i` was already present together
with the updated structure.  Mirrors the source: a no-op returning `true`
once `_n == _cap`, otherwise tests `_assigned[i]`, and on insertion marks
the presence bit, pushes `i` on the stack and increments `_n`. -/
def assign (c : Coordinates) (i : Nat) : Bool × Coordinates :=
  if c.n = c.cap then (true, c)
  else if c.assigned i then (true, c)
  else (false, { c with
    assigned := upd c.assigned i true,
    stack := upd c.stack c.n i,
    n := c.n + 1 })

/-- The loop `for i in [0, m): f[i] := false` (used by the dense branch of
`Coordinates::clear` and by `Coordinates::set`). -/
def wipeAll (f : Nat → Bool) (m : Nat) : Nat → Bool :=
  (List.range m).foldl (fun g i => upd g i false) f

/-- The loop `for k in [0, m): f[stack[k]] := false` (sparse branch of
`Coordinates::clear`). -/
def wipeStack (f : Nat → Bool) (st : Nat → Nat) (m : Nat) : Nat → Bool :=
  (List.range m).foldl (fun g k => upd g (st k) false) f

/-- `Coordinates::clear`: wipes the presence array — a full wipe when dense,
a walk over the compacted stack otherwise — then zeroes `_n`.  The OpenMP /
`minLoopSize` variants of the source execute the same element-wise stores and
share this denotation. -/
def clear (c : Coordinates) : Coordinates :=
  if c.n = c.cap then
    { c with assigned := wipeAll c.assigned c.cap, n := 0 }
  else
    { c with assigned := wipeStack c.assigned c.stack c.n, n := 0 }

/-- `Coordinates::set(arr, arr_initialized, buf, dim)`.  A `none` pointer for
either array selects the trivial branch that unbinds the structure (the
unbound arrays are modelled as constant functions).  Otherwise the memory is
adopted, `_n := 0`, `_cap := dim`, and `_assigned` is wiped iff
`dim > 0 && !arr_initialized`. -/
def set (arr : Option (Nat → Bool)) (arr_initialized : Bool)
    (buf : Option (Nat → Nat)) (dim : Nat) : Coordinates :=
  match arr, buf with
  | none, _ => { cap := 0, n := 0, assigned := fun _ => false, stack := fun _ => 0 }
  | some _, none => { cap := 0, n := 0, assigned := fun _ => false, stack := fun _ => 0 }
  | some mem, some bufMem =>
      { cap := dim, n := 0,
        assigned := if 0 < dim ∧ arr_initialized = false then wipeAll mem dim else mem,
        stack := bufMem }

/-- `Coordinates::local_assignAll` (with `maybe_invalid = false`, bound
arrays): if not already dense, sets `_n := _cap` and stores
`_assigned[i] := true`, `_stack[i] := i` for every `i < _cap`.  The final
store `*local_nnzs = 0` lands in the tile scratch slot and is modelled at
the protocol level. -/
def local_assignAll (c : Coordinates) : Coordinates :=
  if c.n = c.cap then c
  else
    { c with
      n := c.cap,
      assigned := (List.range c.cap).foldl (fun g i => upd g i true) c.assigned,
      stack := (List.range c.cap).foldl (fun g i => upd g i i) c.stack }

/-- `Coordinates::isDense`. -/
def isDense (c : Coordinates) : Bool :=
  c.n == c.cap

/-- `Coordinates::isEmpty`. -/
def isEmpty (c : Coordinates) : Bool :=
  c.n == 0

/-- `Coordinates::nonzeroes`. -/
def nonzeroes (c : Coordinates) : Nat :=
  c.n

/-- `Coordinates::index`: `isDense() ? k : _stack[k]`. -/
def index (c : Coordinates) (k : Nat) : Nat :=
  if c.n = c.cap then k else c.stack k

/-- The representation invariant of the structure (spec invariant I1):
`count ≤ capacity`, the compacted stack holds no duplicates, its entries are
in range, and below `capacity` stack membership coincides with the presence
array. -/
def Inv (c : Coordinates) : Prop :=
  c.n ≤ c.cap ∧ (stackList c).Nodup ∧ (∀ i ∈ stackList c, i < c.cap) ∧
    (∀ i, i < c.cap → (i ∈ stackList c ↔ c.assigned i = true))

instance (c : Coordinates) : Decidable (Inv c) := by
  unfold Inv; infer_instance

theorem wipeAll_eval (f : Nat → Bool) (m : Nat) (j : Nat) :
    wipeAll f m j = if j < m then false else f j := by
  simpa [wipeAll, List.mem_range] using
    foldl_upd_eval (fun _ => false) (List.range m) f j

theorem wipeStack_eval (f : Nat → Bool) (st : Nat → Nat) (m : Nat) (j : Nat) :
    wipeStack f st m j = if j ∈ (List.range m).map st then false else f j := by
  have h := foldl_upd_eval (fun _ => false) ((List.range m).map st) f j
  simpa [wipeStack, List.foldl_map] using h

theorem stackList_assign_insert (c : Coordinates) (i : Nat)
    (hn : c.n ≠ c.cap) (ha : c.assigned i = false) :
    stackList (assign c i).2 = stackList c ++ [i] := by
  simp only [assign, hn, ha, if_neg, Bool.false_eq_true, if_false, ite_false]
  simp only [stackList, List.range_succ, List.map_append, List.map_cons, List.map_nil]
  congr 1
  · apply List.map_congr_left
    intro k hk
    have hk' : k < c.n := List.mem_range.mp hk
    exact upd_other _ _ _ _ (Nat.ne_of_lt hk')
  · simp [upd_same]

/-- In a state satisfying the invariant with `count = capacity`, every index
below capacity is present (pigeonhole over the duplicate-free stack). -/
theorem dense_all_assigned (c : Coordinates) (hInv : Inv c) (hd : c.n = c.cap) :
    ∀ i, i < c.cap → c.assigned i = true := by
  obtain ⟨-, hnd, hlt, hmem⟩ := hInv
  intro i hi
  rw [← hmem i hi]
  have hsub : (stackList c).toFinset ⊆ Finset.range c.cap := by
    intro x hx
    exact Finset.mem_range.mpr (hlt x (List.mem_toFinset.mp hx))
  have hlen : (stackList c).length = c.n := by
    simp [stackList]
  have hcard : (Finset.range c.cap).card ≤ (stackList c).toFinset.card := by
    rw [List.toFinset_card_of_nodup hnd, hlen, hd, Finset.card_range]
  have heq := Finset.eq_of_subset_of_card_le hsub hcard
  have : i ∈ (stackList c).toFinset := by
    rw [heq]; exact Finset.mem_range.mpr hi
  exact List.mem_toFinset.mp this

/-- `assign` preserves the invariant and adds `i` to the tracked set. -/
theorem assign_preserves_Inv (c : Coordinates) (i : Nat)
    (hInv : Inv c) (hi : i < c.cap) :
    Inv (assign c i).2 ∧
      (∀ j, (assign c i).2.assigned j = (c.assigned j || decide (j = i))) ∧
      (assign c i).2.cap = c.cap := by
  by_cases hn : c.n = c.cap
  · have hall := dense_all_assigned c hInv hn
    refine ⟨by simpa [assign, hn] using hInv, ?_, by simp [assign, hn]⟩
    intro j
    by_cases hj : j = i
    · subst hj
      simp [assign, hn, hall j hi]
    · simp [assign, hn, hj]
  · by_cases ha : c.assigned i = true
    · refine ⟨by simpa [assign, hn, ha] using hInv, ?_, by simp [assign, hn, ha]⟩
      intro j
      by_cases hj : j = i
      · subst hj; simp [assign, hn, ha]
      · simp [assign, hn, ha, hj]
    · have ha' : c.assigned i = false := by
        cases h : c.assigned i
        · rfl
        · exact absurd h ha
      obtain ⟨hle, hnd, hlt, hmem⟩ := hInv
      have hst := stackList_assign_insert c i hn ha'
      have hni : i ∉ stackList c := fun hin => ha ((hmem i hi).mp hin)
      have hcap' : (assign c i).2.cap = c.cap := by
        simp [assign, hn, ha']
      have hass : ∀ j, (assign c i).2.assigned j = (c.assigned j || decide (j = i)) := by
        intro j
        by_cases hj : j = i
        · subst hj; simp [assign, hn, ha', upd_same]
        · simp [assign, hn, ha', upd_other _ _ _ _ hj, hj]
      refine ⟨⟨?_, ?_, ?_, ?_⟩, hass, hcap'⟩
      · have : (assign c i).2.n = c.n + 1 := by simp [assign, hn, ha']
        rw [this, hcap']
        exact Nat.succ_le_of_lt (Nat.lt_of_le_of_ne hle hn)
      · rw [hst]
        simpa [List.nodup_append] using ⟨hnd, hni⟩
      · rw [hst, hcap']
        intro j hj
        rcases List.mem_append.mp hj with h | h
        · exact hlt j h
        · simp at h; omega
      · rw [hst, hcap']
        intro j hj
        rw [hass j]
        by_cases hji : j = i
        · subst hji; simp [hni, hmem j hj]
        · simp [hji, hmem j hj]

/-- `clear` empties the structure: afterwards `count = 0` and every presence
flag below capacity is `false` (both the dense-wipe and the stack-walk
branch), and the invariant holds. -/
theorem clear_spec_aux (c : Coordinates) (hInv : Inv c) :
    (clear c).n = 0 ∧ (∀ i, i < c.cap → (clear c).assigned i = false) ∧
      (clear c).cap = c.cap ∧ Inv (clear c) := by
  obtain ⟨hle, hnd, hlt, hmem⟩ := hInv
  have hass : ∀ i, i < c.cap → (clear c).assigned i = false := by
    intro i hi
    by_cases hn : c.n = c.cap
    · simp [clear, hn, wipeAll_eval, hi]
    · simp only [clear, hn, if_false, ite_false]
      rw [wipeStack_eval]
      by_cases hin : i ∈ (List.range c.n).map c.stack
      · simp [hin]
      · have : i ∉ stackList c := hin
        have hfalse : c.assigned i = false := by
          cases h : c.assigned i
          · rfl
          · exact absurd ((hmem i hi).mpr h) this
        simp [hin, hfalse]
  have hn0 : (clear c).n = 0 := by
    by_cases hn : c.n = c.cap <;> simp [clear, hn]
  have hcap : (clear c).cap = c.cap := by
    by_cases hn : c.n = c.cap <;> simp [clear, hn]
  refine ⟨hn0, hass, hcap, ?_⟩
  refine ⟨by omega, ?_, ?_, ?_⟩
  · simp [stackList, hn0]
  · simp [stackList, hn0]
  · intro i hi
    rw [hcap] at hi
    simp [stackList, hn0, hass i hi]

/-- Fresh binding satisfies the invariant. -/
theorem set_fresh_Inv (mem : Nat → Bool) (bufMem : Nat → Nat) (dim : Nat) :
    Inv (set (some mem) false (some bufMem) dim) ∧
      (set (some mem) false (some bufMem) dim).n = 0 ∧
      (set (some mem) false (some bufMem) dim).cap = dim ∧
      (∀ i, i < dim → (set (some mem) false (some bufMem) dim).assigned i = false) := by
  have hass : ∀ i, i < dim → (set (some mem) false (some bufMem) dim).assigned i = false := by
    intro i hi
    have hd : 0 < dim := Nat.pos_of_ne_zero (by omega)
    simp [set, hd, wipeAll_eval, hi]
  refine ⟨⟨by simp [set], by simp [set, stackList], by simp [set, stackList], ?_⟩, by simp [set], by simp [set], hass⟩
  intro i hi
  have h0 : stackList (set (some mem) false (some bufMem) dim) = [] := by
    simp [stackList, set]
  have hcap : (set (some mem) false (some bufMem) dim).cap = dim := by
    simp [set]
  rw [hcap] at hi
  simp [h0, hass i hi]

/-- A sequence of sequential `assign` calls (the value returned by each call
is discarded). -/
def runAssigns (L : List Nat) (c : Coordinates) : Coordinates :=
  L.foldl (fun c i => (assign c i).2) c

/-- Running a list of insertions sequentially preserves the invariant, keeps
the capacity, and the final presence array is the pointwise disjunction of
the initial one with membership in the list. -/
theorem runAssigns_spec (L : List Nat) (c : Coordinates)
    (hInv : Inv c) (hL : ∀ i ∈ L, i < c.cap) :
    Inv (runAssigns L c) ∧ (runAssigns L c).cap = c.cap ∧
      (∀ j, (runAssigns L c).assigned j = (c.assigned j || decide (j ∈ L))) := by
  induction L generalizing c with
  | nil => simp [runAssigns, hInv]
  | cons a t ih =>
      have ha : a < c.cap := hL a (List.mem_cons_self a t)
      obtain ⟨hInv', hass', hcap'⟩ := assign_preserves_Inv c a hInv ha
      have hLt : ∀ i ∈ t, i < (assign c a).2.cap := by
        intro i hi; rw [hcap']; exact hL i (List.mem_cons_of_mem a hi)
      obtain ⟨h1, h2, h3⟩ := ih (assign c a).2 hInv' hLt
      refine ⟨by simpa [runAssigns] using h1, by simpa [runAssigns, hcap'] using h2, ?_⟩
      intro j
      have : (runAssigns (a :: t) c) = runAssigns t (assign c a).2 := by
        simp [runAssigns]
      rw [this, h3 j, hass' j]
      by_cases hja : j = a <;> by_cases hjt : j ∈ t <;> simp [hja, hjt]

/-- A sequential operation: `assign(i)` or `clear()`. -/
inductive SeqOp where
  | ins (i : Nat) : SeqOp
  | wipe : SeqOp

/-- Run a list of sequential operations. -/
def runOps (ops : List SeqOp) (c : Coordinates) : Coordinates :=
  ops.foldl (fun c op => match op with
    | SeqOp.ins i => (assign c i).2
    | SeqOp.wipe => clear c) c

theorem runOps_preserves_Inv (ops : List SeqOp) (c : Coordinates)
    (hInv : Inv c) (hops : ∀ i, SeqOp.ins i ∈ ops → i < c.cap) :
    Inv (runOps ops c) ∧ (runOps ops c).cap = c.cap := by
  induction ops generalizing c with
  | nil => exact ⟨hInv, rfl⟩
  | cons a t ih =>
      cases a with
      | ins i =>
          have hi : i < c.cap := hops i (List.mem_cons_self _ _)
          obtain ⟨hInv', -, hcap'⟩ := assign_preserves_Inv c i hInv hi
          have hops' : ∀ j, SeqOp.ins j ∈ t → j < (assign c i).2.cap := by
            intro j hj; rw [hcap']; exact hops j (List.mem_cons_of_mem _ hj)
          obtain ⟨h1, h2⟩ := ih (assign c i).2 hInv' hops'
          exact ⟨by simpa [runOps] using h1, by simpa [runOps, hcap'] using h2⟩
      | wipe =>
          obtain ⟨-, -, hcap', hInv'⟩ := clear_spec_aux c hInv
          have hops' : ∀ j, SeqOp.ins j ∈ t → j < (clear c).cap := by
            intro j hj; rw [hcap']; exact hops j (List.mem_cons_of_mem _ hj)
          obtain ⟨h1, h2⟩ := ih (clear c) hInv' hops'
          exact ⟨by simpa [runOps] using h1, by simpa [runOps, hcap'] using h2⟩

/-- Sequential inclusive prefix sum with running base `b`:
`prefSeq b [c0, c1, ...] = [b + c0, b + c0 + c1, ...]`.  This is the
sequential branch of `prefixSumComputation` (`pref_sum[0] = _n +
local_new_nnzs[0]`, `pref_sum[i] = pref_sum[i-1] + local_new_nnzs[i]`) with
`b` the current global count. -/
def prefSeq (b : Nat) : List Nat → List Nat
  | [] => []
  | c :: cs => (b + c) :: prefSeq (b + c) cs

theorem prefSeq_append (b : Nat) (l1 l2 : List Nat) :
    prefSeq b (l1 ++ l2) = prefSeq b l1 ++ prefSeq (b + l1.sum) l2 := by
  induction l1 generalizing b with
  | nil => simp [prefSeq]
  | cons a t ih =>
      simp [prefSeq, ih, Nat.add_assoc]

theorem prefSeq_shift (a b : Nat) (l : List Nat) :
    (prefSeq a l).map (fun x => x + b) = prefSeq (a + b) l := by
  induction l generalizing a with
  | nil => simp [prefSeq]
  | cons c cs ih =>
      simp only [prefSeq, List.map_cons, ih]
      have hb : a + c + b = a + b + c := by omega
      rw [hb]

theorem prefSeq_length (b : Nat) (l : List Nat) : (prefSeq b l).length = l.length := by
  induction l generalizing b with
  | nil => rfl
  | cons c cs ih => simp [prefSeq, ih]

theorem prefSeq_getLastD (b d : Nat) (l : List Nat) (h : l ≠ []) :
    (prefSeq b l).getLastD d = b + l.sum := by
  induction l generalizing b d with
  | nil => exact absurd rfl h
  | cons c cs ih =>
      cases hcs : cs with
      | nil => simp [prefSeq]
      | cons c2 cs2 =>
          subst hcs
          show ((b + c) :: prefSeq (b + c) (c2 :: cs2)).getLastD d = _
          rw [List.getLastD_cons]
          rw [ih (b + c) (b + c) (by simp)]
          simp only [List.sum_cons]
          omega

/-- The two-level parallel branch of `prefixSumComputation`, parameterized by
the contiguous chunk decomposition produced by `config::OMP::localRange`
(one chunk per parallel task; `chunks.join` is the per-tile counter array).
Phase one computes a local inclusive prefix sum per chunk and records its
last element; phase two lets a single thread turn those chunk totals into
running totals; phase three adds `_n` plus the preceding running total back
into every element of each chunk. -/
def prefPar (oldN : Nat) (chunks : List (List Nat)) : List Nat :=
  let totals := chunks.map (fun ch => (prefSeq 0 ch).getLastD 0)
  let run := prefSeq 0 totals
  (List.zipWith (fun ch acc => (prefSeq 0 ch).map (fun x => x + acc))
    chunks (oldN :: run.map (fun x => oldN + x))).flatten

theorem prefPar_cons (oldN : Nat) (ch : List Nat) (rest : List (List Nat))
    (hch : ch ≠ []) :
    prefPar oldN (ch :: rest) =
      (prefSeq 0 ch).map (fun x => x + oldN) ++ prefPar (oldN + ch.sum) rest := by
  have htot : (prefSeq 0 ch).getLastD 0 = ch.sum := by
    rw [prefSeq_getLastD 0 0 ch hch]; omega
  have hacc : ((prefSeq 0 (rest.map (fun c => (prefSeq 0 c).getLastD 0))).map
        (fun x => ch.sum + x)).map (fun x => oldN + x) =
      (prefSeq 0 (rest.map (fun c => (prefSeq 0 c).getLastD 0))).map
        (fun x => (oldN + ch.sum) + x) := by
    rw [List.map_map]
    apply List.map_congr_left
    intro x _
    simp only [Function.comp_apply]
    omega
  simp only [prefPar, List.map_cons, htot]
  have hrun : prefSeq 0 (ch.sum :: rest.map (fun c => (prefSeq 0 c).getLastD 0)) =
      ch.sum :: (prefSeq 0 (rest.map (fun c => (prefSeq 0 c).getLastD 0))).map
        (fun x => ch.sum + x) := by
    simp only [prefSeq, Nat.zero_add]
    congr 1
    have h1 := prefSeq_shift 0 ch.sum (rest.map (fun c => (prefSeq 0 c).getLastD 0))
    rw [Nat.zero_add] at h1
    rw [← h1]
    apply List.map_congr_left
    intro x _
    omega
  rw [hrun]
  simp only [List.map_cons, List.zipWith_cons_cons, List.flatten_cons, hacc]

theorem prefPar_eq_prefSeq (oldN : Nat) (chunks : List (List Nat))
    (hne : ∀ ch ∈ chunks, ch ≠ []) :
    prefPar oldN chunks = prefSeq oldN chunks.flatten := by
  induction chunks generalizing oldN with
  | nil => simp [prefPar, prefSeq]
  | cons ch rest ih =>
      have hch : ch ≠ [] := hne ch (List.mem_cons_self _ _)
      have hrest : ∀ c ∈ rest, c ≠ [] := fun c hc => hne c (List.mem_cons_of_mem _ hc)
      rw [prefPar_cons oldN ch rest hch, ih (oldN + ch.sum) hrest,
        List.flatten_cons, prefSeq_append]
      rw [prefSeq_shift]
      simp

theorem prefSeq_getD (b : Nat) (l : List Nat) (k : Nat) (hk : k < l.length) :
    (prefSeq b l).getD k 0 = b + (l.take (k + 1)).sum := by
  induction l generalizing b k with
  | nil => simp at hk
  | cons c cs ih =>
      cases k with
      | zero => simp [prefSeq]
      | succ k' =>
          have hk' : k' < cs.length := by simpa using hk
          simp only [prefSeq, List.getD_cons_succ, List.take_succ_cons, List.sum_cons]
          rw [ih (b + c) k' hk']
          omega

/-- State of one execution episode: the global structure together with the
per-tile scratch segments carved out of `_buffer` by `localCoordinatesInit`:
for tile `t`, `locStk t` is the written region of its local stack,
`locInit t` the `*local_nnzs` counter stored just before it, `newNnzs t` the
`local_new_nnzs[t]` slot, and `pref t` the `pref_sum[t]` slot. -/
structure PState where
  glob : Coordinates
  locStk : Nat → List Nat
  locInit : Nat → Nat
  newNnzs : Nat → Nat
  pref : Nat → Nat

/-- Lower bound of tile `t` under tile size `ts` (as produced by the
analytic model installed by `localCoordinatesInit`). -/
def tileLo (ts t : Nat) : Nat := t * ts

/-- Upper bound of tile `t`, clipped to the capacity. -/
def tileHi (ts cap t : Nat) : Nat := min ((t + 1) * ts) cap

/-- Scan strategy (a) of `asyncSubsetInit`: walk the tile's index range and
push the tile-local offset of every index whose presence flag is set. -/
def scanRangeL (c : Coordinates) (lower upper : Nat) : List Nat :=
  ((List.range' lower (upper - lower)).filter (fun i => c.assigned i)).map
    (fun i => i - lower)

/-- Scan strategy (b) of `asyncSubsetInit`: walk the global compacted stack
and push the tile-local offset of every entry inside the tile's range. -/
def scanStackL (c : Coordinates) (lower upper : Nat) : List Nat :=
  ((stackList c).filter (fun k => decide (lower ≤ k) && decide (k < upper))).map
    (fun k => k - lower)

/-- The local stack contents written by `asyncSubsetInit(lower, upper)`:
strategy (a) when the tile is smaller than the global nonzero count,
strategy (b) otherwise. -/
def asyncSubsetInitL (c : Coordinates) (lower upper : Nat) : List Nat :=
  if upper - lower < c.n then scanRangeL c lower upper
  else scanStackL c lower upper

/-- `Coordinates::asyncSubsetInit(lower, upper)` on the episode state: a
no-op when the capacity is zero; otherwise writes tile
`lower / tile_size`'s local stack and `*local_nnzs`, and zeroes its
`local_new_nnzs` slot. -/
def asyncSubsetInitP (ts : Nat) (s : PState) (lower upper : Nat) : PState :=
  if s.glob.cap = 0 then s
  else
    let t := lower / ts
    { s with
      locStk := upd s.locStk t (asyncSubsetInitL s.glob lower upper),
      locInit := upd s.locInit t (asyncSubsetInitL s.glob lower upper).length,
      newNnzs := upd s.newNnzs t 0 }

/-- `Coordinates::asyncJoinSubset(subset, lower, upper)`: records
`subset._n - *local_nnzs` (unsigned arithmetic; in the protocol the view
count never drops below the initial local count) into
`local_new_nnzs[lower / tile_size]` and touches nothing else. -/
def asyncJoinSubsetP (ts : Nat) (s : PState) (viewN : Nat) (lower upper : Nat) :
    PState :=
  { s with newNnzs := upd s.newNnzs (lower / ts) (viewN - s.locInit (lower / ts)) }

/-- One `assign` call on the subset view returned by `asyncSubset` for the
tile `[lower, lower + width)`, expressed on the aliased storage: the view's
presence slice is `_assigned + lower` (so testing and setting offset
`i - lower` reads and writes the global flag of `i`), its stack is the
tile's private scratch segment, and its count is the number of entries
written there.  `i` is the global index being inserted. -/
def tileAssign (lower width : Nat) (A : Nat → Bool) (stk : List Nat) (i : Nat) :
    (Nat → Bool) × List Nat :=
  if stk.length = width then (A, stk)
  else if A i then (A, stk)
  else (upd A i true, stk ++ [i - lower])

/-- All `assign` calls of one tile's local-active phase. -/
def tileRun (lower width : Nat) (A : Nat → Bool) (stk : List Nat)
    (ins : List Nat) : (Nat → Bool) × List Nat :=
  ins.foldl (fun p i => tileAssign lower width p.1 p.2 i) (A, stk)

/-- Phase 2 + phase 3 work of one tile: obtain the view via `asyncSubset`,
perform the tile's `assign` calls on it, and commit the view's count with
`asyncJoinSubset`.  The view's writes land in the aliased global presence
array and in the tile's scratch stack. -/
def localPhaseStep (ts : Nat) (ins : Nat → List Nat) (s : PState) (t : Nat) :
    PState :=
  let lower := tileLo ts t
  let upper := tileHi ts s.glob.cap t
  let p := tileRun lower (upper - lower) s.glob.assigned (s.locStk t) (ins t)
  asyncJoinSubsetP ts
    { s with
      glob := { s.glob with assigned := p.1 },
      locStk := upd s.locStk t p.2 }
    p.2.length lower upper

/-- `Coordinates::prefixSumComputation` for `T` tiles.  The slots
`pref_sum[0 .. T)` receive the sequential recurrence (the parallel branch
computes the same values, `prefPar_eq_prefSeq`), and `_n` is updated to
`pref_sum[T - 1]`. -/
def prefSumP (T : Nat) (s : PState) : PState :=
  let pr := prefSeq s.glob.n ((List.range T).map s.newNnzs)
  { s with
    pref := fun t => if t < T then pr.getD t 0 else s.pref t,
    glob := { s.glob with n := pr.getD (T - 1) 0 } }

/-- `Coordinates::joinSubset(lower, upper)`: a no-op at capacity zero;
otherwise copies the tile's buffered new local indices (entries
`[*local_nnzs, *local_nnzs + local_new_nnzs[t])` of its local stack),
converted to global indices by adding `lower`, into the global compacted
stack starting at offset `pref_sum[t] - local_new_nnzs[t]`, then zeroes the
tile's counter.  `joinStack` is the copy loop
(`for k in [start, start + news): _stack[pos0 + (k - start)] :=
local_stack[k] + lower`). -/
def joinStack (stack : Nat → Nat) (loc : List Nat)
    (start news pos0 lower : Nat) : Nat → Nat :=
  (List.range news).foldl
    (fun g k => upd g (pos0 + k) (loc.getD (start + k) 0 + lower)) stack

def joinSubsetP (ts : Nat) (s : PState) (lower upper : Nat) : PState :=
  if s.glob.cap = 0 then s
  else
    let t := lower / ts
    let start := s.locInit t
    let news := s.newNnzs t
    let pos0 := s.pref t - news
    let stack2 := joinStack s.glob.stack (s.locStk t) start news pos0 lower
    { s with
      glob := { s.glob with stack := stack2 },
      newNnzs := upd s.newNnzs t 0 }

/-- The four-phase protocol: `asyncSubsetInit` per tile (in order `ord1`),
the local-active and commit phase per tile (in order `ord2`),
`prefixSumComputation`, then `joinSubset` per tile (in order `ord4`). -/
def runProtocol (ts T : Nat) (ins : Nat → List Nat)
    (ord1 ord2 ord4 : List Nat) (s : PState) : PState :=
  let s1 := ord1.foldl
    (fun s t => asyncSubsetInitP ts s (tileLo ts t) (tileHi ts s.glob.cap t)) s
  let s2 := ord2.foldl (localPhaseStep ts ins) s1
  let s3 := prefSumP T s2
  ord4.foldl
    (fun s t => joinSubsetP ts s (tileLo ts t) (tileHi ts s.glob.cap t)) s3

/-- A duplicate-free list of naturals below `w` of length `w` contains every
natural below `w`. -/
theorem nodup_full_range (l : List Nat) (w : Nat) (hnd : l.Nodup)
    (hlt : ∀ j ∈ l, j < w) (hlen : l.length = w) : ∀ j, j < w → j ∈ l := by
  intro j hj
  have hsub : l.toFinset ⊆ Finset.range w := by
    intro x hx
    exact Finset.mem_range.mpr (hlt x (List.mem_toFinset.mp hx))
  have hcard : (Finset.range w).card ≤ l.toFinset.card := by
    rw [List.toFinset_card_of_nodup hnd, hlen, Finset.card_range]
  have heq := Finset.eq_of_subset_of_card_le hsub hcard
  have : j ∈ l.toFinset := by rw [heq]; exact Finset.mem_range.mpr hj
  exact List.mem_toFinset.mp this

/-- The invariant a tile's local stack keeps with respect to the (aliased)
presence array: duplicate-free offsets below the tile width matching
exactly the presence flags of the tile's range. -/
def LocalInv (A : Nat → Bool) (lower width : Nat) (stk : List Nat) : Prop :=
  stk.Nodup ∧ (∀ j ∈ stk, j < width) ∧
    (∀ j, j < width → (j ∈ stk ↔ A (lower + j) = true))

theorem scanRangeL_spec (c : Coordinates) (lower upper : Nat)
    (hlh : lower ≤ upper) :
    LocalInv c.assigned lower (upper - lower) (scanRangeL c lower upper) := by
  refine ⟨?_, ?_, ?_⟩
  · apply List.Nodup.map_on
    · intro x hx y hy hxy
      have hx' := (List.mem_filter.mp hx).1
      have hy' := (List.mem_filter.mp hy).1
      rw [List.mem_range'_1] at hx' hy'
      omega
    · exact (List.nodup_range' _ _).filter _
  · intro j hj
    simp only [scanRangeL, List.mem_map, List.mem_filter, List.mem_range'_1] at hj
    obtain ⟨i, ⟨⟨h1, h2⟩, -⟩, h3⟩ := hj
    omega
  · intro j hj
    simp only [scanRangeL, List.mem_map, List.mem_filter, List.mem_range'_1]
    constructor
    · rintro ⟨i, ⟨⟨h1, h2⟩, ha⟩, h3⟩
      have : lower + j = i := by omega
      rw [this]; exact ha
    · intro ha
      exact ⟨lower + j, ⟨⟨by omega, by omega⟩, ha⟩, by omega⟩

theorem scanStackL_spec (c : Coordinates) (lower upper : Nat)
    (hInv : Inv c) (hup : upper ≤ c.cap) :
    LocalInv c.assigned lower (upper - lower) (scanStackL c lower upper) := by
  obtain ⟨-, hnd, -, hmem⟩ := hInv
  refine ⟨?_, ?_, ?_⟩
  · apply List.Nodup.map_on
    · intro x hx y hy hxy
      have hx' := (List.mem_filter.mp hx).2
      have hy' := (List.mem_filter.mp hy).2
      simp only [Bool.and_eq_true, decide_eq_true_eq] at hx' hy'
      omega
    · exact hnd.filter _
  · intro j hj
    simp only [scanStackL, List.mem_map, List.mem_filter, Bool.and_eq_true,
      decide_eq_true_eq] at hj
    obtain ⟨k, ⟨-, h1, h2⟩, h3⟩ := hj
    omega
  · intro j hj
    simp only [scanStackL, List.mem_map, List.mem_filter, Bool.and_eq_true,
      decide_eq_true_eq]
    constructor
    · rintro ⟨k, ⟨hk, h1, h2⟩, h3⟩
      have : lower + j = k := by omega
      rw [this]
      exact (hmem k (by omega)).mp hk
    · intro ha
      refine ⟨lower + j, ⟨?_, by omega, by omega⟩, by omega⟩
      exact (hmem (lower + j) (by omega)).mpr ha

theorem asyncSubsetInitL_spec (c : Coordinates) (lower upper : Nat)
    (hInv : Inv c) (hlh : lower ≤ upper) (hup : upper ≤ c.cap) :
    LocalInv c.assigned lower (upper - lower) (asyncSubsetInitL c lower upper) := by
  unfold asyncSubsetInitL
  by_cases h : upper - lower < c.n
  · simpa [h] using scanRangeL_spec c lower upper hlh
  · simpa [h] using scanStackL_spec c lower upper hInv hup

/-- The two scan strategies of `asyncSubsetInit` populate the local stack
with the same set of offsets. -/
theorem scan_strategies_agree (c : Coordinates) (lower upper : Nat)
    (hInv : Inv c) (hlh : lower ≤ upper) (hup : upper ≤ c.cap) :
    ∀ x, x ∈ scanRangeL c lower upper ↔ x ∈ scanStackL c lower upper := by
  intro x
  obtain ⟨-, hbd1, hm1⟩ := scanRangeL_spec c lower upper hlh
  obtain ⟨-, hbd2, hm2⟩ := scanStackL_spec c lower upper hInv hup
  constructor
  · intro hx
    exact (hm2 x (hbd1 x hx)).mpr ((hm1 x (hbd1 x hx)).mp hx)
  · intro hx
    exact (hm1 x (hbd2 x hx)).mpr ((hm2 x (hbd2 x hx)).mp hx)

/-- Distinct tiles have disjoint index ranges (invariant I2). -/
theorem tile_disjoint (ts cap t u i : Nat) (hne : t ≠ u)
    (h1 : tileLo ts t ≤ i) (h2 : i < tileHi ts cap t)
    (h3 : tileLo ts u ≤ i) (h4 : i < tileHi ts cap u) : False := by
  unfold tileLo tileHi at *
  rcases Nat.lt_or_ge t u with h | h
  · have : (t + 1) * ts ≤ u * ts := Nat.mul_le_mul_right ts h
    omega
  · have hul : u < t := by omega
    have : (u + 1) * ts ≤ t * ts := Nat.mul_le_mul_right ts hul
    omega

theorem tileAssign_spec (lower width : Nat) (A : Nat → Bool) (stk : List Nat)
    (i : Nat) (hi : lower ≤ i ∧ i < lower + width)
    (hLI : LocalInv A lower width stk) :
    (∃ d, (tileAssign lower width A stk i).2 = stk ++ d) ∧
      LocalInv (tileAssign lower width A stk i).1 lower width
        (tileAssign lower width A stk i).2 ∧
      (∀ j, (tileAssign lower width A stk i).1 j = (A j || decide (j = i))) := by
  obtain ⟨hnd, hbd, hmem⟩ := hLI
  by_cases hfull : stk.length = width
  · have hall : ∀ j, j < width → j ∈ stk :=
      nodup_full_range stk width hnd hbd hfull
    have hAi : A i = true := by
      have h1 : i - lower < width := by omega
      have h2 := (hmem (i - lower) h1).mp (hall (i - lower) h1)
      have h3 : lower + (i - lower) = i := by omega
      rwa [h3] at h2
    refine ⟨⟨[], by simp [tileAssign, hfull]⟩,
      by simpa [tileAssign, hfull] using ⟨hnd, hbd, hmem⟩, ?_⟩
    intro j
    simp only [tileAssign, hfull, if_true, ite_true]
    by_cases hj : j = i
    · subst hj; simp [hAi]
    · simp [hj]
  · by_cases hA : A i = true
    · refine ⟨⟨[], by simp [tileAssign, hfull, hA]⟩,
        by simpa [tileAssign, hfull, hA] using ⟨hnd, hbd, hmem⟩, ?_⟩
      intro j
      simp only [tileAssign, hfull, hA, if_true, ite_true, if_false, ite_false]
      by_cases hj : j = i
      · subst hj; simp [hA]
      · simp [hj]
    · have hA' : A i = false := by cases h : A i <;> simp_all
      have hoff : lower + (i - lower) = i := by omega
      have hnis : i - lower ∉ stk := by
        intro hin
        have := (hmem (i - lower) (by omega)).mp hin
        rw [hoff] at this
        simp_all
      refine ⟨⟨[i - lower], by simp [tileAssign, hfull, hA']⟩, ⟨?_, ?_, ?_⟩, ?_⟩
      · simp only [tileAssign, hfull, hA', Bool.false_eq_true, if_false, ite_false]
        simpa [List.nodup_append] using ⟨hnd, hnis⟩
      · intro j hj
        simp only [tileAssign, hfull, hA', Bool.false_eq_true, if_false,
          ite_false, List.mem_append, List.mem_singleton] at hj
        rcases hj with h | h
        · exact hbd j h
        · omega
      · intro j hj
        simp only [tileAssign, hfull, hA', Bool.false_eq_true, if_false,
          ite_false, List.mem_append, List.mem_singleton]
        by_cases hji : j = i - lower
        · subst hji
          rw [hoff]
          simp [upd_same]
        · have hne : lower + j ≠ i := by omega
          rw [upd_other _ _ _ _ hne]
          simp [hji, hmem j hj]
      · intro j
        simp only [tileAssign, hfull, hA', Bool.false_eq_true, if_false, ite_false]
        by_cases hj : j = i
        · subst hj; simp [upd_same]
        · simp [upd_other _ _ _ _ hj, hj]

theorem tileRun_spec (lower width : Nat) (A : Nat → Bool) (stk : List Nat)
    (ins : List Nat) (hins : ∀ i ∈ ins, lower ≤ i ∧ i < lower + width)
    (hLI : LocalInv A lower width stk) :
    (∃ d, (tileRun lower width A stk ins).2 = stk ++ d) ∧
      LocalInv (tileRun lower width A stk ins).1 lower width
        (tileRun lower width A stk ins).2 ∧
      (∀ j, (tileRun lower width A stk ins).1 j = (A j || decide (j ∈ ins))) := by
  induction ins generalizing A stk with
  | nil => simpa [tileRun] using hLI
  | cons a rest ih =>
      have ha := hins a (List.mem_cons_self _ _)
      obtain ⟨⟨d1, hd1⟩, hLI1, hA1⟩ := tileAssign_spec lower width A stk a ha hLI
      have hins' : ∀ i ∈ rest, lower ≤ i ∧ i < lower + width :=
        fun i hi => hins i (List.mem_cons_of_mem _ hi)
      obtain ⟨⟨d2, hd2⟩, hLI2, hA2⟩ :=
        ih (tileAssign lower width A stk a).1 (tileAssign lower width A stk a).2
          hins' hLI1
      have hrun : tileRun lower width A stk (a :: rest) =
          tileRun lower width (tileAssign lower width A stk a).1
            (tileAssign lower width A stk a).2 rest := by
        simp [tileRun]
      refine ⟨⟨d1 ++ d2, ?_⟩, ?_, ?_⟩
      · rw [hrun, hd2, hd1, List.append_assoc]
      · rw [hrun]; exact hLI2
      · intro j
        rw [hrun, hA2 j, hA1 j]
        by_cases hja : j = a <;> by_cases hjr : j ∈ rest <;> simp [hja, hjr]

/-- The per-tile subset-initialisation phase, folded over the tiles in any
order: the global structure is untouched; every visited tile's scratch holds
the `asyncSubsetInit` contents computed from the (unchanged) global state,
with `*local_nnzs` the number of pre-existing entries and a zeroed
`local_new_nnzs`; unvisited tiles keep their previous scratch. -/
theorem phase1_char (ts : Nat) (ord : List Nat) (s : PState)
    (hcap : s.glob.cap ≠ 0) (hts : 0 < ts) :
    let f := fun (s : PState) (t : Nat) =>
      asyncSubsetInitP ts s (tileLo ts t) (tileHi ts s.glob.cap t)
    let s1 := ord.foldl f s
    s1.glob = s.glob ∧ s1.pref = s.pref ∧
      (∀ t ∈ ord,
        s1.locStk t = asyncSubsetInitL s.glob (tileLo ts t) (tileHi ts s.glob.cap t) ∧
        s1.locInit t =
          (asyncSubsetInitL s.glob (tileLo ts t) (tileHi ts s.glob.cap t)).length ∧
        s1.newNnzs t = 0) ∧
      (∀ t, t ∉ ord →
        s1.locStk t = s.locStk t ∧ s1.locInit t = s.locInit t ∧
        s1.newNnzs t = s.newNnzs t) := by
  intro f s1
  induction ord generalizing s with
  | nil => exact ⟨rfl, rfl, by simp, fun t _ => ⟨rfl, rfl, rfl⟩⟩
  | cons a rest ih =>
      have hid : tileLo ts a / ts = a := by
        unfold tileLo
        exact Nat.mul_div_cancel a hts
      have hstep : f s a = { s with
          locStk := upd s.locStk a
            (asyncSubsetInitL s.glob (tileLo ts a) (tileHi ts s.glob.cap a)),
          locInit := upd s.locInit a
            (asyncSubsetInitL s.glob (tileLo ts a) (tileHi ts s.glob.cap a)).length,
          newNnzs := upd s.newNnzs a 0 } := by
        simp only [f, asyncSubsetInitP, hcap, if_neg, ite_false, hid]
      have hg : (f s a).glob = s.glob := by rw [hstep]
      obtain ⟨ih1, ih2, ih3, ih4⟩ := ih (f s a) (by rw [hg]; exact hcap)
      have hfold : s1 = rest.foldl f (f s a) := by
        simp [s1, List.foldl_cons]
      have hgfix : (f s a).glob.cap = s.glob.cap := by rw [hg]
      refine ⟨?_, ?_, ?_, ?_⟩
      · rw [hfold]
        rw [show rest.foldl f (f s a) = s1 from hfold.symm] at *
        rw [ih1, hg]
      · rw [hfold] at *
        rw [ih2, hstep]
      · intro t ht
        rcases List.mem_cons.mp ht with h | h
        · subst h
          by_cases hr : t ∈ rest
          · have := ih3 t hr
            rw [hfold, hg] at *
            exact this
          · have := ih4 t hr
            rw [hfold] at *
            obtain ⟨e1, e2, e3⟩ := this
            rw [e1, e2, e3, hstep]
            exact ⟨upd_same _ _ _, upd_same _ _ _, upd_same _ _ _⟩
        · have := ih3 t h
          rw [hfold, hg] at *
          exact this
      · intro t ht
        have hta : t ≠ a := fun he => ht (he ▸ List.mem_cons_self a rest)
        have htr : t ∉ rest := fun hr => ht (List.mem_cons_of_mem _ hr)
        have := ih4 t htr
        rw [hfold] at *
        obtain ⟨e1, e2, e3⟩ := this
        rw [e1, e2, e3, hstep]
        exact ⟨upd_other _ _ _ _ hta, upd_other _ _ _ _ hta, upd_other _ _ _ _ hta⟩

theorem localPhaseStep_eq (ts : Nat) (ins : Nat → List Nat) (s : PState) (t : Nat)
    (hts : 0 < ts) :
    localPhaseStep ts ins s t =
      { s with
        glob := { s.glob with assigned :=
          (tileRun (tileLo ts t) (tileHi ts s.glob.cap t - tileLo ts t)
            s.glob.assigned (s.locStk t) (ins t)).1 },
        locStk := upd s.locStk t
          (tileRun (tileLo ts t) (tileHi ts s.glob.cap t - tileLo ts t)
            s.glob.assigned (s.locStk t) (ins t)).2,
        newNnzs := upd s.newNnzs t
          ((tileRun (tileLo ts t) (tileHi ts s.glob.cap t - tileLo ts t)
            s.glob.assigned (s.locStk t) (ins t)).2.length - s.locInit t) } := by
  have hid : tileLo ts t / ts = t := by
    unfold tileLo
    exact Nat.mul_div_cancel t hts
  simp only [localPhaseStep, asyncJoinSubsetP, hid]

/-- The local-active/commit phase folded over the tiles in any duplicate-free
order: the global count, stack and capacity are untouched, the presence
array becomes the pointwise disjunction of the initial one with the
insertions, every visited tile's local stack grows by exactly the entries
counted in its `local_new_nnzs` slot while keeping the local invariant, and
unvisited tiles are untouched. -/
theorem phase2_char (ts : Nat) (ins : Nat → List Nat) (ord : List Nat) (s : PState)
    (hts : 0 < ts) (hnd : ord.Nodup)
    (hins : ∀ t ∈ ord, ∀ i ∈ ins t, tileLo ts t ≤ i ∧ i < tileHi ts s.glob.cap t)
    (hLI : ∀ t ∈ ord,
      LocalInv s.glob.assigned (tileLo ts t)
        (tileHi ts s.glob.cap t - tileLo ts t) (s.locStk t) ∧
      s.locInit t = (s.locStk t).length) :
    let s2 := ord.foldl (localPhaseStep ts ins) s
    s2.glob.cap = s.glob.cap ∧ s2.glob.n = s.glob.n ∧
      s2.glob.stack = s.glob.stack ∧ s2.pref = s.pref ∧ s2.locInit = s.locInit ∧
      (∀ i, s2.glob.assigned i =
        (s.glob.assigned i || decide (∃ t ∈ ord, i ∈ ins t))) ∧
      (∀ t ∈ ord, ∃ d,
        s2.locStk t = s.locStk t ++ d ∧
        s2.newNnzs t = d.length ∧
        LocalInv s2.glob.assigned (tileLo ts t)
          (tileHi ts s.glob.cap t - tileLo ts t) (s2.locStk t)) ∧
      (∀ t, t ∉ ord → s2.locStk t = s.locStk t ∧ s2.newNnzs t = s.newNnzs t) := by
  intro s2
  induction ord generalizing s with
  | nil =>
      refine ⟨rfl, rfl, rfl, rfl, rfl, ?_, by simp, fun t _ => ⟨rfl, rfl⟩⟩
      intro i
      show s.glob.assigned i = _
      simp
  | cons a rest ih =>
      have hanr : a ∉ rest := (List.nodup_cons.mp hnd).1
      have hndr : rest.Nodup := (List.nodup_cons.mp hnd).2
      have hinsa : ∀ i ∈ ins a, tileLo ts a ≤ i ∧
          i < tileLo ts a + (tileHi ts s.glob.cap a - tileLo ts a) := by
        intro i hi
        have h := hins a (List.mem_cons_self _ _) i hi
        omega
      obtain ⟨hLIa, hlia⟩ := hLI a (List.mem_cons_self _ _)
      obtain ⟨⟨d1, hd1⟩, hLI1, hA1⟩ :=
        tileRun_spec (tileLo ts a) (tileHi ts s.glob.cap a - tileLo ts a)
          s.glob.assigned (s.locStk a) (ins a) hinsa hLIa
      have hstep := localPhaseStep_eq ts ins s a hts
      have hs1g : (localPhaseStep ts ins s a).glob.cap = s.glob.cap ∧
          (localPhaseStep ts ins s a).glob.n = s.glob.n ∧
          (localPhaseStep ts ins s a).glob.stack = s.glob.stack ∧
          (localPhaseStep ts ins s a).pref = s.pref ∧
          (localPhaseStep ts ins s a).locInit = s.locInit := by
        rw [hstep]
        exact ⟨rfl, rfl, rfl, rfl, rfl⟩
      have hs1A : ∀ i, (localPhaseStep ts ins s a).glob.assigned i =
          (s.glob.assigned i || decide (i ∈ ins a)) := by
        intro i
        rw [hstep]
        exact hA1 i
      have hs1stka : (localPhaseStep ts ins s a).locStk a =
          (tileRun (tileLo ts a) (tileHi ts s.glob.cap a - tileLo ts a)
            s.glob.assigned (s.locStk a) (ins a)).2 := by
        rw [hstep]
        exact upd_same _ _ _
      have hs1new : (localPhaseStep ts ins s a).newNnzs a = d1.length := by
        rw [hstep]
        show upd s.newNnzs a _ a = _
        rw [upd_same, hd1, List.length_append, hlia]
        omega
      have hs1other : ∀ t, t ≠ a →
          (localPhaseStep ts ins s a).locStk t = s.locStk t ∧
          (localPhaseStep ts ins s a).newNnzs t = s.newNnzs t := by
        intro t hta
        rw [hstep]
        exact ⟨upd_other _ _ _ _ hta, upd_other _ _ _ _ hta⟩
      have hframe : ∀ t, t ≠ a → ∀ j, j < tileHi ts s.glob.cap t - tileLo ts t →
          (localPhaseStep ts ins s a).glob.assigned (tileLo ts t + j) =
            s.glob.assigned (tileLo ts t + j) := by
        intro t hta j hj
        rw [hs1A]
        have hnin : ¬ (tileLo ts t + j) ∈ ins a := by
          intro hin
          have h1 := hins a (List.mem_cons_self _ _) _ hin
          exact tile_disjoint ts s.glob.cap a t (tileLo ts t + j)
            (fun he => hta he.symm) h1.1 h1.2 (by omega) (by omega)
        simp [hnin]
      have hinsr : ∀ t ∈ rest, ∀ i ∈ ins t,
          tileLo ts t ≤ i ∧ i < tileHi ts (localPhaseStep ts ins s a).glob.cap t := by
        intro t ht i hi
        rw [hs1g.1]
        exact hins t (List.mem_cons_of_mem _ ht) i hi
      have hLIr : ∀ t ∈ rest,
          LocalInv (localPhaseStep ts ins s a).glob.assigned (tileLo ts t)
            (tileHi ts (localPhaseStep ts ins s a).glob.cap t - tileLo ts t)
            ((localPhaseStep ts ins s a).locStk t) ∧
          (localPhaseStep ts ins s a).locInit t =
            ((localPhaseStep ts ins s a).locStk t).length := by
        intro t ht
        have hta : t ≠ a := fun he => hanr (he ▸ ht)
        obtain ⟨⟨hn1, hn2, hn3⟩, hn4⟩ := hLI t (List.mem_cons_of_mem _ ht)
        obtain ⟨e1, -⟩ := hs1other t hta
        rw [hs1g.1, e1]
        refine ⟨⟨hn1, hn2, ?_⟩, ?_⟩
        · intro j hj
          rw [hframe t hta j hj]
          exact hn3 j hj
        · rw [hs1g.2.2.2.2]
          exact hn4
      obtain ⟨ihcap, ihn, ihstk, ihpref, ihinit, ihA, ihvis, ihunvis⟩ :=
        ih (localPhaseStep ts ins s a) hndr hinsr hLIr
      have hfold : s2 = rest.foldl (localPhaseStep ts ins) (localPhaseStep ts ins s a) := by
        simp [s2, List.foldl_cons]
      rw [hfold]
      refine ⟨?_, ?_, ?_, ?_, ?_, ?_, ?_, ?_⟩
      · rw [ihcap, hs1g.1]
      · rw [ihn, hs1g.2.1]
      · rw [ihstk, hs1g.2.2.1]
      · rw [ihpref, hs1g.2.2.2.1]
      · rw [ihinit, hs1g.2.2.2.2]
      · intro i
        rw [ihA i, hs1A i]
        by_cases h1 : s.glob.assigned i = true
        · simp [h1]
        · by_cases h2 : i ∈ ins a
          · simp [h1, h2]
          · by_cases h3 : ∃ t ∈ rest, i ∈ ins t <;> simp [h1, h2, h3]
      · intro t ht
        rcases List.mem_cons.mp ht with h | h
        · subst h
          obtain ⟨e1, e2⟩ := ihunvis t hanr
          refine ⟨d1, ?_, ?_, ?_⟩
          · rw [e1, hs1stka, hd1]
          · rw [e2, hs1new]
          · rw [e1, hs1stka]
            obtain ⟨hm1, hm2, hm3⟩ := hLI1
            refine ⟨hm1, hm2, ?_⟩
            intro j hj
            rw [hm3 j hj]
            have hnin : ¬ ∃ u ∈ rest, (tileLo ts t + j) ∈ ins u := by
              rintro ⟨u, hu, hintu⟩
              have hua : u ≠ t := fun he => hanr (he ▸ hu)
              have h1 := hins u (List.mem_cons_of_mem _ hu) _ hintu
              exact tile_disjoint ts s.glob.cap t u (tileLo ts t + j)
                (fun he => hua he.symm) (by omega) (by omega) h1.1 h1.2
            constructor
            · intro hAj
              rw [hA1] at hAj
              rw [ihA, hs1A]
              have hAj' : s.glob.assigned (tileLo ts t + j) = true ∨
                  decide (tileLo ts t + j ∈ ins t) = true := by simpa using hAj
              rcases hAj' with h | h <;> simp [h]
            · intro hAj
              rw [ihA, hs1A] at hAj
              rw [hA1]
              have hAj' : s.glob.assigned (tileLo ts t + j) = true ∨
                  (tileLo ts t + j ∈ ins t) ∨ ∃ u ∈ rest, tileLo ts t + j ∈ ins u := by
                have h0 : (s.glob.assigned (tileLo ts t + j) = true ∨
                    tileLo ts t + j ∈ ins t) ∨ ∃ u ∈ rest, tileLo ts t + j ∈ ins u := by
                  simpa using hAj
                tauto
              rcases hAj' with h | h | h
              · simp [h]
              · simp [h]
              · exact absurd h hnin
        · obtain ⟨d, e1, e2, e3⟩ := ihvis t h
          have hta : t ≠ a := fun he => hanr (he ▸ h)
          obtain ⟨f1, -⟩ := hs1other t hta
          refine ⟨d, ?_, e2, ?_⟩
          · rw [e1, f1]
          · rw [hs1g.1] at e3
            exact e3
      · intro t ht
        have hta : t ≠ a := fun he => ht (he ▸ List.mem_cons_self a rest)
        have htr : t ∉ rest := fun h => ht (List.mem_cons_of_mem _ h)
        obtain ⟨e1, e2⟩ := ihunvis t htr
        obtain ⟨f1, f2⟩ := hs1other t hta
        exact ⟨by rw [e1, f1], by rw [e2, f2]⟩

/-- `prefixSumComputation` leaves `pref_sum[t]` (for `t < T`) holding the
old count plus the cumulative per-tile counters through tile `t`, updates the
global count to `pref_sum[T-1]` = old count plus the total, and changes
nothing else. -/
theorem prefSumP_char (T : Nat) (s : PState) (hT : 0 < T) :
    (prefSumP T s).glob.cap = s.glob.cap ∧
      (prefSumP T s).glob.assigned = s.glob.assigned ∧
      (prefSumP T s).glob.stack = s.glob.stack ∧
      (prefSumP T s).locStk = s.locStk ∧
      (prefSumP T s).locInit = s.locInit ∧
      (prefSumP T s).newNnzs = s.newNnzs ∧
      (∀ t, t < T → (prefSumP T s).pref t =
        s.glob.n + ((List.range (t + 1)).map s.newNnzs).sum) ∧
      (∀ t, ¬ t < T → (prefSumP T s).pref t = s.pref t) ∧
      (prefSumP T s).glob.n = s.glob.n + ((List.range T).map s.newNnzs).sum := by
  have hlen : ((List.range T).map s.newNnzs).length = T := by simp
  have hget : ∀ t, t < T →
      (prefSeq s.glob.n ((List.range T).map s.newNnzs)).getD t 0 =
        s.glob.n + ((List.range (t + 1)).map s.newNnzs).sum := by
    intro t ht
    rw [prefSeq_getD s.glob.n ((List.range T).map s.newNnzs) t (by simpa using ht)]
    congr 1
    rw [← List.map_take, List.take_range]
    have hmin : (t + 1) ⊓ T = t + 1 := by omega
    rw [hmin]
  refine ⟨rfl, rfl, rfl, rfl, rfl, rfl, ?_, ?_, ?_⟩
  · intro t ht
    show (if t < T then _ else s.pref t) = _
    rw [if_pos ht]
    exact hget t ht
  · intro t ht
    show (if t < T then _ else s.pref t) = _
    rw [if_neg ht]
  · show (prefSeq s.glob.n ((List.range T).map s.newNnzs)).getD (T - 1) 0 = _
    have hTT : T - 1 + 1 = T := by omega
    rw [hget (T - 1) (by omega), hTT]

theorem joinSubsetP_eq (ts : Nat) (s : PState) (t : Nat)
    (hts : 0 < ts) (hcap : s.glob.cap ≠ 0) :
    (∀ p, (joinSubsetP ts s (tileLo ts t) (tileHi ts s.glob.cap t)).glob.stack p =
        (if s.pref t - s.newNnzs t ≤ p ∧ p < s.pref t - s.newNnzs t + s.newNnzs t
          then (s.locStk t).getD
            (s.locInit t + (p - (s.pref t - s.newNnzs t))) 0 + tileLo ts t
          else s.glob.stack p)) ∧
      (joinSubsetP ts s (tileLo ts t) (tileHi ts s.glob.cap t)).newNnzs =
        upd s.newNnzs t 0 ∧
      (joinSubsetP ts s (tileLo ts t) (tileHi ts s.glob.cap t)).glob.cap = s.glob.cap ∧
      (joinSubsetP ts s (tileLo ts t) (tileHi ts s.glob.cap t)).glob.n = s.glob.n ∧
      (joinSubsetP ts s (tileLo ts t) (tileHi ts s.glob.cap t)).glob.assigned =
        s.glob.assigned ∧
      (joinSubsetP ts s (tileLo ts t) (tileHi ts s.glob.cap t)).locStk = s.locStk ∧
      (joinSubsetP ts s (tileLo ts t) (tileHi ts s.glob.cap t)).locInit = s.locInit ∧
      (joinSubsetP ts s (tileLo ts t) (tileHi ts s.glob.cap t)).pref = s.pref := by
  have hid : tileLo ts t / ts = t := by
    unfold tileLo
    exact Nat.mul_div_cancel t hts
  have hJ : joinSubsetP ts s (tileLo ts t) (tileHi ts s.glob.cap t) =
      { s with
        glob := { s.glob with
          stack := joinStack s.glob.stack (s.locStk t) (s.locInit t)
            (s.newNnzs t) (s.pref t - s.newNnzs t) (tileLo ts t) },
        newNnzs := upd s.newNnzs t 0 } := by
    simp only [joinSubsetP, hcap, if_neg, ite_false, hid]
  refine ⟨?_, by rw [hJ], by rw [hJ], by rw [hJ], by rw [hJ], by rw [hJ],
    by rw [hJ], by rw [hJ]⟩
  intro p
  rw [hJ]
  show joinStack s.glob.stack (s.locStk t) (s.locInit t) (s.newNnzs t)
    (s.pref t - s.newNnzs t) (tileLo ts t) p = _
  have hfold := foldl_upd_eval
    (fun q => (s.locStk t).getD (s.locInit t + (q - (s.pref t - s.newNnzs t))) 0 +
      tileLo ts t)
    ((List.range (s.newNnzs t)).map ((s.pref t - s.newNnzs t) + ·))
    s.glob.stack p
  rw [List.foldl_map] at hfold
  simp only [Nat.add_sub_cancel_left] at hfold
  unfold joinStack
  rw [hfold]
  congr 1
  simp only [List.mem_map, List.mem_range, eq_iff_iff]
  constructor
  · rintro ⟨k, hk, rfl⟩
    omega
  · rintro ⟨h1, h2⟩
    exact ⟨p - (s.pref t - s.newNnzs t), by omega, by omega⟩

/-- The join phase folded over the tiles in any duplicate-free order: only
the global compacted stack and the per-tile counters change; every visited
tile's counter is zeroed; positions outside all visited tiles' destination
ranges `[pref_sum[t] - local_new_nnzs[t], pref_sum[t])` are untouched, and a
position inside tile `t`'s range receives that tile's buffered entry
converted to a global index. -/
theorem phase4_char (ts : Nat) (ord : List Nat) (s : PState)
    (hcap : s.glob.cap ≠ 0) (hts : 0 < ts) (hnd : ord.Nodup)
    (hdis : ∀ t ∈ ord, ∀ u ∈ ord, t ≠ u → ∀ p,
      (s.pref t - s.newNnzs t ≤ p ∧ p < s.pref t) →
      ¬(s.pref u - s.newNnzs u ≤ p ∧ p < s.pref u))
    (hpn : ∀ t ∈ ord, s.newNnzs t ≤ s.pref t) :
    let s4 := ord.foldl
      (fun s t => joinSubsetP ts s (tileLo ts t) (tileHi ts s.glob.cap t)) s
    s4.glob.cap = s.glob.cap ∧ s4.glob.n = s.glob.n ∧
      s4.glob.assigned = s.glob.assigned ∧ s4.locStk = s.locStk ∧
      s4.locInit = s.locInit ∧ s4.pref = s.pref ∧
      (∀ t ∈ ord, s4.newNnzs t = 0) ∧
      (∀ t, t ∉ ord → s4.newNnzs t = s.newNnzs t) ∧
      (∀ p, (∀ t ∈ ord, ¬(s.pref t - s.newNnzs t ≤ p ∧ p < s.pref t)) →
        s4.glob.stack p = s.glob.stack p) ∧
      (∀ t ∈ ord, ∀ p, s.pref t - s.newNnzs t ≤ p → p < s.pref t →
        s4.glob.stack p =
          (s.locStk t).getD (s.locInit t + (p - (s.pref t - s.newNnzs t))) 0 +
            tileLo ts t) := by
  intro s4
  induction ord generalizing s with
  | nil =>
      exact ⟨rfl, rfl, rfl, rfl, rfl, rfl, by simp, fun t _ => rfl,
        fun p _ => rfl, by simp⟩
  | cons a rest ih =>
      have hanr : a ∉ rest := (List.nodup_cons.mp hnd).1
      have hndr : rest.Nodup := (List.nodup_cons.mp hnd).2
      obtain ⟨jstack, jnew, jcap, jn, jass, jloc, jinit, jpref⟩ :=
        joinSubsetP_eq ts s a hts hcap
      have hpa : s.newNnzs a ≤ s.pref a := hpn a (List.mem_cons_self _ _)
      have hdisr : ∀ t ∈ rest, ∀ u ∈ rest, t ≠ u → ∀ p,
          ((joinSubsetP ts s (tileLo ts a) (tileHi ts s.glob.cap a)).pref t -
            (joinSubsetP ts s (tileLo ts a) (tileHi ts s.glob.cap a)).newNnzs t ≤ p ∧
           p < (joinSubsetP ts s (tileLo ts a) (tileHi ts s.glob.cap a)).pref t) →
          ¬((joinSubsetP ts s (tileLo ts a) (tileHi ts s.glob.cap a)).pref u -
            (joinSubsetP ts s (tileLo ts a) (tileHi ts s.glob.cap a)).newNnzs u ≤ p ∧
           p < (joinSubsetP ts s (tileLo ts a) (tileHi ts s.glob.cap a)).pref u) := by
        intro t ht u hu htu p hp
        have hta : t ≠ a := fun he => hanr (he ▸ ht)
        have hua : u ≠ a := fun he => hanr (he ▸ hu)
        rw [jpref, jnew] at hp ⊢
        rw [upd_other _ _ _ _ hta] at hp
        rw [upd_other _ _ _ _ hua]
        exact hdis t (List.mem_cons_of_mem _ ht) u (List.mem_cons_of_mem _ hu) htu p hp
      have hpnr : ∀ t ∈ rest,
          (joinSubsetP ts s (tileLo ts a) (tileHi ts s.glob.cap a)).newNnzs t ≤
          (joinSubsetP ts s (tileLo ts a) (tileHi ts s.glob.cap a)).pref t := by
        intro t ht
        have hta : t ≠ a := fun he => hanr (he ▸ ht)
        rw [jpref, jnew, upd_other _ _ _ _ hta]
        exact hpn t (List.mem_cons_of_mem _ ht)
      obtain ⟨icap, iN, iass, iloc, iinit, ipref, ivisN, iunvN, iuntou, iwrit⟩ :=
        ih (joinSubsetP ts s (tileLo ts a) (tileHi ts s.glob.cap a))
          (by rw [jcap]; exact hcap) hndr hdisr hpnr
      have hfold : s4 = rest.foldl
          (fun s t => joinSubsetP ts s (tileLo ts t) (tileHi ts s.glob.cap t))
          (joinSubsetP ts s (tileLo ts a) (tileHi ts s.glob.cap a)) := by
        simp [s4, List.foldl_cons]
      rw [hfold]
      refine ⟨by rw [icap, jcap], by rw [iN, jn], by rw [iass, jass],
        by rw [iloc, jloc], by rw [iinit, jinit], by rw [ipref, jpref],
        ?_, ?_, ?_, ?_⟩
      · intro t ht
        rcases List.mem_cons.mp ht with h | h
        · subst h
          rw [iunvN t hanr, jnew, upd_same]
        · exact ivisN t h
      · intro t ht
        have hta : t ≠ a := fun he => ht (he ▸ List.mem_cons_self a rest)
        have htr : t ∉ rest := fun h => ht (List.mem_cons_of_mem _ h)
        rw [iunvN t htr, jnew, upd_other _ _ _ _ hta]
      · intro p hp
        have hrest : ∀ t ∈ rest,
            ¬((joinSubsetP ts s (tileLo ts a) (tileHi ts s.glob.cap a)).pref t -
              (joinSubsetP ts s (tileLo ts a) (tileHi ts s.glob.cap a)).newNnzs t ≤ p ∧
              p < (joinSubsetP ts s (tileLo ts a) (tileHi ts s.glob.cap a)).pref t) := by
          intro t ht
          have hta : t ≠ a := fun he => hanr (he ▸ ht)
          rw [jpref, jnew, upd_other _ _ _ _ hta]
          exact hp t (List.mem_cons_of_mem _ ht)
        rw [iuntou p hrest, jstack p]
        have hnp := hp a (List.mem_cons_self _ _)
        rw [if_neg (by omega)]
      · intro t ht p hp1 hp2
        rcases List.mem_cons.mp ht with h | h
        · subst h
          have hrest : ∀ u ∈ rest,
              ¬((joinSubsetP ts s (tileLo ts t) (tileHi ts s.glob.cap t)).pref u -
                (joinSubsetP ts s (tileLo ts t) (tileHi ts s.glob.cap t)).newNnzs u ≤ p ∧
                p < (joinSubsetP ts s (tileLo ts t) (tileHi ts s.glob.cap t)).pref u) := by
            intro u hu
            have hua : u ≠ t := fun he => hanr (he ▸ hu)
            rw [jpref, jnew, upd_other _ _ _ _ hua]
            exact hdis t (List.mem_cons_self _ _) u (List.mem_cons_of_mem _ hu)
              (fun he => hanr (he ▸ hu)) p ⟨hp1, hp2⟩
          rw [iuntou p hrest, jstack p]
          rw [if_pos (by omega)]
        · have hta : t ≠ a := fun he => hanr (he ▸ h)
          have := iwrit t h p
          rw [jpref, jnew, jloc, jinit,
            upd_other _ _ _ _ hta] at this
          exact this hp1 hp2

theorem sum_range_succ_map (f : Nat → Nat) (t : Nat) :
    ((List.range (t + 1)).map f).sum = ((List.range t).map f).sum + f t := by
  simp [List.range_succ]

theorem sum_range_mono_map (f : Nat → Nat) (a b : Nat) (h : a ≤ b) :
    ((List.range a).map f).sum ≤ ((List.range b).map f).sum := by
  have hb : b = a + (b - a) := by omega
  rw [hb, List.range_add, List.map_append, List.sum_append]
  omega

/-- Every position between the old count and the final count falls in
exactly one tile's destination segment. -/
theorem segment_exists (f : Nat → Nat) (base T p : Nat)
    (h1 : base ≤ p) (h2 : p < base + ((List.range T).map f).sum) :
    ∃ t, t < T ∧ base + ((List.range t).map f).sum ≤ p ∧
      p < base + ((List.range (t + 1)).map f).sum := by
  induction T with
  | zero => simp at h2; omega
  | succ T ih =>
      by_cases hp : p < base + ((List.range T).map f).sum
      · obtain ⟨t, ht, h3, h4⟩ := ih hp
        exact ⟨t, by omega, h3, h4⟩
      · exact ⟨T, by omega, by omega, h2⟩

theorem map_getD_range (l : List Nat) (v : Nat) :
    (List.range l.length).map (fun k => l.getD k v) = l := by
  induction l with
  | nil => simp
  | cons a t ih =>
      have : (a :: t).length = t.length + 1 := rfl
      rw [this, List.range_succ_eq_map, List.map_cons, List.map_map]
      have h2 : (fun k => (a :: t).getD k v) ∘ Nat.succ = fun k => t.getD k v := by
        funext k
        simp
      rw [h2, ih]
      rfl

/-- Full protocol run: the final compacted stack is duplicate-free, holds
exactly the initially present indices plus all inserted ones, and the final
count is its length. -/
theorem runProtocol_spec (ts T : Nat) (c0 : Coordinates) (ins : Nat → List Nat)
    (scr0 : PState) (ord1 ord2 ord4 : List Nat)
    (hscr : scr0.glob = c0) (hInv : Inv c0) (hts : 0 < ts) (hT : 0 < T)
    (hlast : (T - 1) * ts < c0.cap)
    (hins : ∀ t, t < T → ∀ i ∈ ins t, tileLo ts t ≤ i ∧ i < tileHi ts c0.cap t)
    (h1a : ord1.Nodup) (h1b : ∀ t ∈ ord1, t < T) (h1c : ∀ t, t < T → t ∈ ord1)
    (h2a : ord2.Nodup) (h2b : ∀ t ∈ ord2, t < T) (h2c : ∀ t, t < T → t ∈ ord2)
    (h4a : ord4.Nodup) (h4b : ∀ t ∈ ord4, t < T) (h4c : ∀ t, t < T → t ∈ ord4) :
    let fin := runProtocol ts T ins ord1 ord2 ord4 scr0
    (stackList fin.glob).Nodup ∧
      (∀ i, i ∈ stackList fin.glob ↔
        (i < c0.cap ∧ (c0.assigned i = true ∨ ∃ t, t < T ∧ i ∈ ins t))) ∧
      fin.glob.n = (stackList fin.glob).length ∧
      fin.glob.cap = c0.cap := by
  intro fin
  have hcap0 : c0.cap ≠ 0 := by omega
  have hlohi : ∀ t, t < T →
      tileLo ts t ≤ tileHi ts c0.cap t ∧ tileHi ts c0.cap t ≤ c0.cap := by
    intro t ht
    have h2 : t * ts ≤ (T - 1) * ts := Nat.mul_le_mul_right ts (by omega)
    have h1 : t * ts ≤ (t + 1) * ts := Nat.mul_le_mul_right ts (by omega)
    unfold tileLo tileHi
    omega
  -- phase 1
  obtain ⟨p1glob, p1pref, p1vis, p1unvis⟩ :=
    phase1_char ts ord1 scr0 (by rw [hscr]; exact hcap0) hts
  rw [hscr] at p1glob p1vis
  -- phase 2
  have hins2 : ∀ t ∈ ord2, ∀ i ∈ ins t,
      tileLo ts t ≤ i ∧
        i < tileHi ts (ord1.foldl (fun s t =>
          asyncSubsetInitP ts s (tileLo ts t) (tileHi ts s.glob.cap t)) scr0).glob.cap t := by
    intro t ht i hi
    rw [p1glob]
    exact hins t (h2b t ht) i hi
  have hLI2 : ∀ t ∈ ord2,
      LocalInv (ord1.foldl (fun s t =>
          asyncSubsetInitP ts s (tileLo ts t) (tileHi ts s.glob.cap t)) scr0).glob.assigned
        (tileLo ts t)
        (tileHi ts (ord1.foldl (fun s t =>
          asyncSubsetInitP ts s (tileLo ts t) (tileHi ts s.glob.cap t)) scr0).glob.cap t -
          tileLo ts t)
        ((ord1.foldl (fun s t =>
          asyncSubsetInitP ts s (tileLo ts t) (tileHi ts s.glob.cap t)) scr0).locStk t) ∧
      (ord1.foldl (fun s t =>
          asyncSubsetInitP ts s (tileLo ts t) (tileHi ts s.glob.cap t)) scr0).locInit t =
        ((ord1.foldl (fun s t =>
          asyncSubsetInitP ts s (tileLo ts t) (tileHi ts s.glob.cap t)) scr0).locStk t).length := by
    intro t ht
    have htT : t < T := h2b t ht
    obtain ⟨e1, e2, -⟩ := p1vis t (h1c t htT)
    rw [p1glob, e1, e2]
    exact ⟨asyncSubsetInitL_spec c0 (tileLo ts t) (tileHi ts c0.cap t) hInv
      (hlohi t htT).1 (hlohi t htT).2, rfl⟩
  obtain ⟨p2cap, p2n, p2stack, p2pref, p2init, p2A, p2vis, p2unvis⟩ :=
    phase2_char ts ins ord2 _ hts h2a hins2 hLI2
  -- name the intermediate states
  have hfin : fin = ord4.foldl
      (fun s t => joinSubsetP ts s (tileLo ts t) (tileHi ts s.glob.cap t))
      (prefSumP T (ord2.foldl (localPhaseStep ts ins)
        (ord1.foldl (fun s t =>
          asyncSubsetInitP ts s (tileLo ts t) (tileHi ts s.glob.cap t)) scr0))) := rfl
  rw [hfin]
  generalize hg1 : (ord1.foldl (fun s t =>
      asyncSubsetInitP ts s (tileLo ts t) (tileHi ts s.glob.cap t)) scr0) = s1
    at p1glob p1vis p1unvis p2cap p2n p2stack p2pref p2init p2A p2vis p2unvis ⊢
  generalize hg2 : ord2.foldl (localPhaseStep ts ins) s1 = s2
    at p2cap p2n p2stack p2pref p2init p2A p2vis p2unvis ⊢
  -- phase 3
  obtain ⟨p3cap, p3A, p3stack, p3loc, p3init, p3new, p3pref, -, p3n⟩ :=
    prefSumP_char T s2 hT
  generalize hg3 : prefSumP T s2 = s3
    at p3cap p3A p3stack p3loc p3init p3new p3pref p3n ⊢
  -- phase 4
  have hcap2 : s2.glob.cap = c0.cap := by rw [p2cap, p1glob]
  have hn2 : s2.glob.n = c0.n := by rw [p2n, p1glob]
  have hcap3 : s3.glob.cap = c0.cap := by rw [p3cap, hcap2]
  have hranges : ∀ t, t < T →
      s3.pref t - s3.newNnzs t = c0.n + ((List.range t).map s2.newNnzs).sum ∧
      s3.pref t = c0.n + ((List.range (t + 1)).map s2.newNnzs).sum := by
    intro t ht
    have hp := p3pref t ht
    rw [hn2] at hp
    have hnew : s3.newNnzs t = s2.newNnzs t := by rw [p3new]
    have hsucc := sum_range_succ_map s2.newNnzs t
    constructor
    · rw [hp, hnew]
      omega
    · exact hp
  have hdis4 : ∀ t ∈ ord4, ∀ u ∈ ord4, t ≠ u → ∀ p,
      (s3.pref t - s3.newNnzs t ≤ p ∧ p < s3.pref t) →
      ¬(s3.pref u - s3.newNnzs u ≤ p ∧ p < s3.pref u) := by
    intro t ht u hu htu p hp hq
    obtain ⟨ht1, ht2⟩ := hranges t (h4b t ht)
    obtain ⟨hu1, hu2⟩ := hranges u (h4b u hu)
    rcases Nat.lt_or_ge t u with h | h
    · have : t + 1 ≤ u := h
      have hmono := sum_range_mono_map s2.newNnzs (t + 1) u this
      omega
    · have hul : u < t := by omega
      have hmono := sum_range_mono_map s2.newNnzs (u + 1) t hul
      omega
  have hpn4 : ∀ t ∈ ord4, s3.newNnzs t ≤ s3.pref t := by
    intro t ht
    obtain ⟨ht1, ht2⟩ := hranges t (h4b t ht)
    have hnew : s3.newNnzs t = s2.newNnzs t := by rw [p3new]
    have hsucc := sum_range_succ_map s2.newNnzs t
    omega
  obtain ⟨p4cap, p4n, p4A, p4loc, p4init, p4pref, p4visN, p4unvN, p4untou, p4writ⟩ :=
    phase4_char ts ord4 s3 (by rw [hcap3]; exact hcap0) hts h4a hdis4 hpn4
  generalize hg4 : ord4.foldl (fun s t =>
      joinSubsetP ts s (tileLo ts t) (tileHi ts s.glob.cap t)) s3 = s4
    at p4cap p4n p4A p4loc p4init p4pref p4visN p4unvN p4untou p4writ ⊢
  -- choose the per-tile lists of new entries
  have p2vis' : ∀ t, ∃ dd, t < T →
      s2.locStk t = s1.locStk t ++ dd ∧ s2.newNnzs t = dd.length ∧
      LocalInv s2.glob.assigned (tileLo ts t)
        (tileHi ts s1.glob.cap t - tileLo ts t) (s2.locStk t) := by
    intro t
    by_cases ht : t < T
    · obtain ⟨dd, h⟩ := p2vis t (h2c t ht)
      exact ⟨dd, fun _ => h⟩
    · exact ⟨[], fun h => absurd h ht⟩
  choose d hd using p2vis'
  have hcap1 : s1.glob.cap = c0.cap := by rw [p1glob]
  have hA1 : s1.glob.assigned = c0.assigned := by rw [p1glob]
  -- global count after the protocol
  have hn4 : s4.glob.n = c0.n + ((List.range T).map s2.newNnzs).sum := by
    rw [p4n, p3n, hn2]
  -- old positions of the compacted stack are untouched
  have hstack_old : ∀ p, p < c0.n → s4.glob.stack p = c0.stack p := by
    intro p hp
    have huntou : ∀ t ∈ ord4, ¬(s3.pref t - s3.newNnzs t ≤ p ∧ p < s3.pref t) := by
      intro t ht hcontra
      obtain ⟨ht1, -⟩ := hranges t (h4b t ht)
      omega
    rw [p4untou p huntou, p3stack, p2stack]
    rw [p1glob]
  -- positions in tile t's destination segment hold its new entries
  have hstack_seg : ∀ t, t < T → ∀ k, k < (d t).length →
      s4.glob.stack (c0.n + ((List.range t).map s2.newNnzs).sum + k) =
        (d t).getD k 0 + tileLo ts t := by
    intro t ht k hk
    obtain ⟨hd1, hd2, hd3⟩ := hd t ht
    obtain ⟨ht1, ht2⟩ := hranges t ht
    have hsucc := sum_range_succ_map s2.newNnzs t
    have hnew3 : s3.newNnzs t = s2.newNnzs t := by rw [p3new]
    have hw := p4writ t (h4c t ht) (c0.n + ((List.range t).map s2.newNnzs).sum + k)
      (by omega) (by rw [ht2, hsucc]; rw [hnew3] at *; omega)
    rw [hw, p3loc, p3init, p2init, hd1]
    obtain ⟨-, -, e2⟩ := p1vis t (h1c t ht)
    have hlen1 : s1.locInit t = (s1.locStk t).length := by
      obtain ⟨f1, f2, -⟩ := p1vis t (h1c t ht)
      rw [f1, f2]
    rw [hlen1]
    have hpos : c0.n + ((List.range t).map s2.newNnzs).sum + k -
        (s3.pref t - s3.newNnzs t) = k := by omega
    rw [hpos]
    rw [List.getD_append_right _ _ _ _ (by omega)]
    have hidx : (s1.locStk t).length + k - (s1.locStk t).length = k := by omega
    rw [hidx]
  have hwidth : ∀ t, t < T → ∀ j, j < tileHi ts c0.cap t - tileLo ts t →
      tileLo ts t ≤ tileLo ts t + j ∧ tileLo ts t + j < tileHi ts c0.cap t := by
    intro t ht j hj
    have := hlohi t ht
    omega
  -- characterisation of the per-tile new-entry lists
  have hd_char : ∀ t, t < T →
      (d t).Nodup ∧
      (∀ j, j ∈ d t ↔ (j < tileHi ts c0.cap t - tileLo ts t ∧
        c0.assigned (tileLo ts t + j) = false ∧ (tileLo ts t + j) ∈ ins t)) := by
    intro t ht
    obtain ⟨hd1, hd2, hd3⟩ := hd t ht
    rw [hcap1] at hd3
    obtain ⟨hnd2, hbd2, hmem2⟩ := hd3
    obtain ⟨f1, -, -⟩ := p1vis t (h1c t ht)
    have hLIinit := asyncSubsetInitL_spec c0 (tileLo ts t) (tileHi ts c0.cap t)
      hInv (hlohi t ht).1 (hlohi t ht).2
    rw [← f1] at hLIinit
    obtain ⟨hnd1, hbd1, hmem1⟩ := hLIinit
    rw [hd1] at hnd2 hbd2 hmem2
    have hndd : (d t).Nodup := (List.nodup_append.mp hnd2).2.1
    have hdisj : List.Disjoint (s1.locStk t) (d t) := (List.nodup_append.mp hnd2).2.2
    refine ⟨hndd, ?_⟩
    intro j
    constructor
    · intro hj
      have hjw : j < tileHi ts c0.cap t - tileLo ts t :=
        hbd2 j (List.mem_append.mpr (Or.inr hj))
      have hA2 : s2.glob.assigned (tileLo ts t + j) = true :=
        (hmem2 j hjw).mp (List.mem_append.mpr (Or.inr hj))
      have hnot1 : j ∉ s1.locStk t := fun hc => hdisj hc hj
      have hA0 : c0.assigned (tileLo ts t + j) = false := by
        cases hc : c0.assigned (tileLo ts t + j)
        · rfl
        · exact absurd ((hmem1 j hjw).mpr hc) hnot1
      have hp2 := p2A (tileLo ts t + j)
      rw [hA1, hA0] at hp2
      rw [hp2] at hA2
      have hex : ∃ u ∈ ord2, (tileLo ts t + j) ∈ ins u := by
        simpa using hA2
      obtain ⟨u, hu, hinu⟩ := hex
      have huT := h2b u hu
      have hut : u = t := by
        by_contra hne
        have hb := hins u huT _ hinu
        have hcj := hwidth t ht j hjw
        exact tile_disjoint ts c0.cap u t (tileLo ts t + j) hne hb.1 hb.2 hcj.1 hcj.2
      rw [hut] at hinu
      exact ⟨hjw, hA0, hinu⟩
    · rintro ⟨hjw, hA0, hinst⟩
      have hA2 : s2.glob.assigned (tileLo ts t + j) = true := by
        rw [p2A, hA1, hA0]
        simp only [Bool.false_or, decide_eq_true_eq]
        exact ⟨t, h2c t ht, hinst⟩
      have hj2 : j ∈ s1.locStk t ++ d t := (hmem2 j hjw).mpr hA2
      rcases List.mem_append.mp hj2 with h | h
      · have := (hmem1 j hjw).mp h
        rw [hA0] at this
        exact absurd this (by simp)
      · exact h
  -- the final compacted stack decomposes into the old stack followed by the
  -- per-tile segments of new entries, in tile order
  have hdecomp : ∀ m, m ≤ T →
      (List.range (c0.n + ((List.range m).map s2.newNnzs).sum)).map s4.glob.stack =
        stackList c0 ++
          ((List.range m).map (fun t => (d t).map (fun j => j + tileLo ts t))).flatten := by
    intro m
    induction m with
    | zero =>
        intro h0
        simp only [List.range_zero, List.map_nil, List.sum_nil, Nat.add_zero,
          List.flatten_nil, List.append_nil]
        unfold stackList
        apply List.map_congr_left
        intro p hp
        exact hstack_old p (List.mem_range.mp hp)
    | succ m ih =>
        intro hm
        have hmT : m < T := by omega
        have hsucc := sum_range_succ_map s2.newNnzs m
        have hlen : s2.newNnzs m = (d m).length := (hd m hmT).2.1
        rw [hsucc]
        have hsum : c0.n + (((List.range m).map s2.newNnzs).sum + s2.newNnzs m) =
            (c0.n + ((List.range m).map s2.newNnzs).sum) + (d m).length := by
          rw [hlen]; omega
        rw [hsum, List.range_add, List.map_append]
        rw [ih (by omega)]
        have hseg : ((List.range ((d m).length)).map
            (fun x => (c0.n + ((List.range m).map s2.newNnzs).sum) + x)).map
              s4.glob.stack = (d m).map (fun j => j + tileLo ts m) := by
          rw [List.map_map]
          have hcon : ∀ k ∈ List.range ((d m).length),
              (s4.glob.stack ∘ (fun x => (c0.n + ((List.range m).map s2.newNnzs).sum) + x)) k =
                (fun k => (d m).getD k 0 + tileLo ts m) k := by
            intro k hk
            simp only [Function.comp_apply]
            exact hstack_seg m hmT k (List.mem_range.mp hk)
          rw [List.map_congr_left hcon]
          have h2 : (List.range ((d m).length)).map
              (fun k => (d m).getD k 0 + tileLo ts m) =
              ((List.range ((d m).length)).map (fun k => (d m).getD k 0)).map
                (fun x => x + tileLo ts m) := by
            rw [List.map_map]
            rfl
          rw [h2, map_getD_range]
        rw [hseg]
        rw [List.range_succ, List.map_append, List.flatten_append]
        simp [List.append_assoc]
  have hstackeq : stackList s4.glob = stackList c0 ++
      ((List.range T).map (fun t => (d t).map (fun j => j + tileLo ts t))).flatten := by
    unfold stackList
    rw [hn4]
    exact hdecomp T le_rfl
  obtain ⟨hle0, hnd0, hbd0, hmem0⟩ := hInv
  have hseg_range : ∀ t, t < T → ∀ x ∈ (d t).map (fun j => j + tileLo ts t),
      tileLo ts t ≤ x ∧ x < tileHi ts c0.cap t := by
    intro t ht x hx
    obtain ⟨j, hj, rfl⟩ := List.mem_map.mp hx
    have hjw := (((hd_char t ht).2 j).mp hj).1
    have := hwidth t ht j hjw
    omega
  have hnodup : (stackList s4.glob).Nodup := by
    rw [hstackeq, List.nodup_append]
    refine ⟨hnd0, ?_, ?_⟩
    · rw [List.nodup_flatten]
      constructor
      · intro l hl
        obtain ⟨t, htr, rfl⟩ := List.mem_map.mp hl
        have htT := List.mem_range.mp htr
        apply List.Nodup.map
        · intro a b hab
          have hab' : a + tileLo ts t = b + tileLo ts t := hab
          omega
        · exact (hd_char t htT).1
      · rw [List.pairwise_map]
        apply List.Pairwise.imp_of_mem _ (List.pairwise_lt_range T)
        intro a b ha hb hab x hxa hxb
        have haT := List.mem_range.mp ha
        have hbT := List.mem_range.mp hb
        have h1 := hseg_range a haT x hxa
        have h2 := hseg_range b hbT x hxb
        exact tile_disjoint ts c0.cap a b x (Nat.ne_of_lt hab) h1.1 h1.2 h2.1 h2.2
    · intro x hx0 hxf
      rw [List.mem_flatten] at hxf
      obtain ⟨l, hl, hxl⟩ := hxf
      obtain ⟨t, htr, rfl⟩ := List.mem_map.mp hl
      have htT := List.mem_range.mp htr
      obtain ⟨j, hj, rfl⟩ := List.mem_map.mp hxl
      obtain ⟨hjw, hA0, -⟩ := ((hd_char t htT).2 j).mp hj
      have hb := hwidth t htT j hjw
      have hlh := hlohi t htT
      have hxc : j + tileLo ts t < c0.cap := by omega
      have hA1' := (hmem0 _ hxc).mp hx0
      rw [Nat.add_comm] at hA1'
      rw [hA1'] at hA0
      exact absurd hA0 (by simp)
  have hmemchar : ∀ i, i ∈ stackList s4.glob ↔
      (i < c0.cap ∧ (c0.assigned i = true ∨ ∃ t, t < T ∧ i ∈ ins t)) := by
    intro i
    rw [hstackeq, List.mem_append]
    constructor
    · rintro (h | h)
      · have hic := hbd0 i h
        exact ⟨hic, Or.inl ((hmem0 i hic).mp h)⟩
      · rw [List.mem_flatten] at h
        obtain ⟨l, hl, hxl⟩ := h
        obtain ⟨t, htr, rfl⟩ := List.mem_map.mp hl
        have htT := List.mem_range.mp htr
        obtain ⟨j, hj, rfl⟩ := List.mem_map.mp hxl
        obtain ⟨hjw, hA0, hins0⟩ := ((hd_char t htT).2 j).mp hj
        have hb := hwidth t htT j hjw
        have hlh := hlohi t htT
        refine ⟨by omega, Or.inr ⟨t, htT, ?_⟩⟩
        rw [Nat.add_comm]
        exact hins0
    · rintro ⟨hic, h | h⟩
      · exact Or.inl ((hmem0 i hic).mpr h)
      · obtain ⟨t, htT, hit⟩ := h
        by_cases hA : c0.assigned i = true
        · exact Or.inl ((hmem0 i hic).mpr hA)
        · have hA0 : c0.assigned i = false := by
            cases hc : c0.assigned i
            · rfl
            · exact absurd hc hA
          have hb := hins t htT i hit
          have hlh := hlohi t htT
          have hj : i - tileLo ts t ∈ d t := by
            apply ((hd_char t htT).2 _).mpr
            have hofs : tileLo ts t + (i - tileLo ts t) = i := by omega
            refine ⟨by omega, ?_, ?_⟩
            · rw [hofs]; exact hA0
            · rw [hofs]; exact hit
          refine Or.inr ?_
          rw [List.mem_flatten]
          refine ⟨(d t).map (fun j => j + tileLo ts t),
            List.mem_map.mpr ⟨t, List.mem_range.mpr htT, rfl⟩, ?_⟩
          exact List.mem_map.mpr ⟨i - tileLo ts t, hj, by omega⟩
  refine ⟨hnodup, hmemchar, ?_, by rw [p4cap, hcap3]⟩
  simp [stackList]

theorem nodup_length_eq (l1 l2 : List Nat) (h1 : l1.Nodup) (h2 : l2.Nodup)
    (h : ∀ x, x ∈ l1 ↔ x ∈ l2) : l1.length = l2.length := by
  rw [← List.toFinset_card_of_nodup h1, ← List.toFinset_card_of_nodup h2]
  congr 1
  apply Finset.ext
  intro x
  simp only [List.mem_toFinset]
  exact h x

/-- The capacity-8 scenario: freshly bound structure of capacity 8. -/
def scenC0 : Coordinates := set (some (fun _ => false)) false (some (fun _ => 0)) 8

/-- The scenario's episode state (scratch all zeroed). -/
def scenScr : PState :=
  { glob := scenC0, locStk := fun _ => [], locInit := fun _ => 0,
    newNnzs := fun _ => 0, pref := fun _ => 0 }

/-- Per-tile insertions of the scenario: tile 0 inserts {1}, tile 1 inserts
{3}, tile 2 nothing, tile 3 inserts {6, 7}. -/
def scenIns : Nat → List Nat := fun t => [[1], [3], [], [6, 7]].getD t []

/-- The scenario after the full four-phase protocol with tile size 2 and
four tiles. -/
def scenFin : PState :=
  runProtocol 2 4 scenIns (List.range 4) (List.range 4) (List.range 4) scenScr

/-- C1: for every capacity, initial state satisfying the set-equivalence
invariant, tiling aligned with the installed parameters, and family of
per-tile insertion sets, the four-phase protocol (subset-init per tile,
local assigns on each tile's view, commit per tile, prefix-sum, join per
tile, tiles in any order within each phase) produces the same final count
and the same duplicate-free compacted set as performing all the insertions
sequentially via `assign` in any single global order; in particular the
capacity-8 scenario with tiles `[0,2),[2,4),[4,6),[6,8)` and insertions
{1},{3},{},{6,7} ends with count 4, compacted set {1,3,6,7}, and per-tile
prefix sums [1,2,2,4]. -/
theorem C1_protocol_equals_sequential :
    (∀ (ts T : Nat) (c0 : Coordinates) (ins : Nat → List Nat) (scr0 : PState)
      (L : List Nat) (ord1 ord2 ord4 : List Nat),
      scr0.glob = c0 → Inv c0 → 0 < ts → 0 < T → (T - 1) * ts < c0.cap →
      (∀ t, t < T → ∀ i ∈ ins t, tileLo ts t ≤ i ∧ i < tileHi ts c0.cap t) →
      ord1.Nodup → (∀ t ∈ ord1, t < T) → (∀ t, t < T → t ∈ ord1) →
      ord2.Nodup → (∀ t ∈ ord2, t < T) → (∀ t, t < T → t ∈ ord2) →
      ord4.Nodup → (∀ t ∈ ord4, t < T) → (∀ t, t < T → t ∈ ord4) →
      (∀ t, t < T → ∀ i ∈ ins t, i ∈ L) → (∀ i ∈ L, ∃ t, t < T ∧ i ∈ ins t) →
      ((runProtocol ts T ins ord1 ord2 ord4 scr0).glob.n = (runAssigns L c0).n ∧
        (∀ i, i ∈ stackList (runProtocol ts T ins ord1 ord2 ord4 scr0).glob ↔
          i ∈ stackList (runAssigns L c0)) ∧
        (stackList (runProtocol ts T ins ord1 ord2 ord4 scr0).glob).Nodup)) ∧
    (scenFin.glob.n = 4 ∧ stackList scenFin.glob = [1, 3, 6, 7] ∧
      (List.range 4).map scenFin.pref = [1, 2, 2, 4]) := by
  constructor
  · intro ts T c0 ins scr0 L ord1 ord2 ord4 hscr hInv hts hT hlast hins
      h1a h1b h1c h2a h2b h2c h4a h4b h4c hL1 hL2
    obtain ⟨hnd, hmem, hlen, hcap⟩ :=
      runProtocol_spec ts T c0 ins scr0 ord1 ord2 ord4 hscr hInv hts hT hlast hins
        h1a h1b h1c h2a h2b h2c h4a h4b h4c
    have hL : ∀ i ∈ L, i < c0.cap := by
      intro i hi
      obtain ⟨t, htT, hit⟩ := hL2 i hi
      have hb := hins t htT i hit
      have h2 : t * ts ≤ (T - 1) * ts := Nat.mul_le_mul_right ts (by omega)
      unfold tileLo tileHi at hb
      omega
    obtain ⟨hInvS, hcapS, hassS⟩ := runAssigns_spec L c0 hInv hL
    obtain ⟨-, hndS, hbdS, hmemS⟩ := hInvS
    have hmemS' : ∀ i, i ∈ stackList (runAssigns L c0) ↔
        (i < c0.cap ∧ (c0.assigned i = true ∨ ∃ t, t < T ∧ i ∈ ins t)) := by
      intro i
      constructor
      · intro h
        have hic : i < c0.cap := by
          have := hbdS i h
          omega
        have hm := (hmemS i (by omega)).mp h
        rw [hassS i] at hm
        have hm' : c0.assigned i = true ∨ i ∈ L := by simpa using hm
        rcases hm' with h' | h'
        · exact ⟨hic, Or.inl h'⟩
        · exact ⟨hic, Or.inr (hL2 i h')⟩
      · rintro ⟨hic, h⟩
        apply (hmemS i (by omega)).mpr
        rw [hassS i]
        rcases h with h' | ⟨t, htT, hit⟩
        · rw [h']; simp
        · have : i ∈ L := hL1 t htT i hit
          simp [this]
    have hmem2 : ∀ i, i ∈ stackList (runProtocol ts T ins ord1 ord2 ord4 scr0).glob ↔
        i ∈ stackList (runAssigns L c0) := by
      intro i
      rw [hmem i, hmemS' i]
    refine ⟨?_, hmem2, hnd⟩
    rw [hlen]
    have hlenS : (runAssigns L c0).n = (stackList (runAssigns L c0)).length := by
      simp [stackList]
    rw [hlenS]
    exact nodup_length_eq _ _ hnd hndS hmem2
  · refine ⟨by decide, by decide, by decide⟩

/-- Witness for C1: the general statement applied to the capacity-8
scenario (count comparison with the sequential order 1, 3, 6, 7). -/
theorem C1_protocol_equals_sequential_witness :
    scenFin.glob.n = (runAssigns [1, 3, 6, 7] scenC0).n :=
  (C1_protocol_equals_sequential.1 2 4 scenC0 scenIns scenScr [1, 3, 6, 7]
    (List.range 4) (List.range 4) (List.range 4) rfl (by decide) (by decide)
    (by decide) (by decide) (by decide) (by decide) (by decide) (by decide)
    (by decide) (by decide) (by decide) (by decide) (by decide) (by decide)
    (by decide) (by decide)).1

/-- C2: the two-level parallel prefix-sum path of `prefixSumComputation`
(per-chunk local sums, single-thread sum of the chunk totals, per-chunk
offset add-back) computes exactly the values of the one-pass sequential
recurrence `pref_sum[0] = oldCount + counts[0]`,
`pref_sum[i] = pref_sum[i-1] + counts[i]`, for every chunk decomposition
into non-empty contiguous chunks; and upon return `pref_sum[t]` holds the
old count plus the cumulative counters and the global count equals the old
count plus the sum of all per-tile counters. -/
theorem C2_prefix_sum_parallel_eq_sequential :
    (∀ (oldN : Nat) (chunks : List (List Nat)), (∀ ch ∈ chunks, ch ≠ []) →
      prefPar oldN chunks = prefSeq oldN chunks.flatten) ∧
    (∀ (T : Nat) (s : PState), 0 < T →
      ((∀ t, t < T → (prefSumP T s).pref t =
        s.glob.n + ((List.range (t + 1)).map s.newNnzs).sum) ∧
       (prefSumP T s).glob.n =
        s.glob.n + ((List.range T).map s.newNnzs).sum)) := by
  constructor
  · exact prefPar_eq_prefSeq
  · intro T s hT
    obtain ⟨-, -, -, -, -, -, h7, -, h9⟩ := prefSumP_char T s hT
    exact ⟨h7, h9⟩

/-- Witness for C2: a concrete chunk decomposition. -/
theorem C2_prefix_sum_parallel_eq_sequential_witness :
    prefPar 5 [[1, 2], [3], [4, 0]] =
      prefSeq 5 ([[1, 2], [3], [4, 0]] : List (List Nat)).flatten :=
  C2_prefix_sum_parallel_eq_sequential.1 5 [[1, 2], [3], [4, 0]] (by decide)

/-- C3: every sequence of sequential `assign`/`clear` calls applied to a
structure freshly bound via `set` preserves the representation invariant
(count bounded by capacity, duplicate-free compacted stack matching the
presence array); as this holds for every list of calls, it holds after
every prefix, i.e. after every call. -/
theorem C3_sequential_invariant (mem : Nat → Bool) (bufMem : Nat → Nat)
    (dim : Nat) (ops : List SeqOp)
    (hops : ∀ i, SeqOp.ins i ∈ ops → i < dim) :
    Inv (runOps ops (set (some mem) false (some bufMem) dim)) := by
  obtain ⟨hInv0, -, hcap0, -⟩ := set_fresh_Inv mem bufMem dim
  have hops' : ∀ i, SeqOp.ins i ∈ ops →
      i < (set (some mem) false (some bufMem) dim).cap := by
    rw [hcap0]; exact hops
  exact (runOps_preserves_Inv ops _ hInv0 hops').1

/-- Witness for C3: a concrete run with a duplicate insert and a clear. -/
theorem C3_sequential_invariant_witness :
    Inv (runOps [SeqOp.ins 1, SeqOp.ins 1, SeqOp.wipe, SeqOp.ins 2, SeqOp.ins 0]
      (set (some (fun _ => false)) false (some (fun _ => 0)) 3)) :=
  C3_sequential_invariant (fun _ => false) (fun _ => 0) 3
    [SeqOp.ins 1, SeqOp.ins 1, SeqOp.wipe, SeqOp.ins 2, SeqOp.ins 0]
    (by
      intro i hi
      simp only [List.mem_cons, List.not_mem_nil, or_false] at hi
      rcases hi with h | h | h | h | h <;> simp_all)

/-- C4: `assign(i)` with the set full or `i` already present returns
already-present and leaves the structure unchanged; otherwise it returns
false, marks `i` present, appends `i` to the compacted stack and increments
the count by one; consequently a second consecutive `assign(i)` returns
already-present and changes nothing. -/
theorem C4_assign_cases (c : Coordinates) (i : Nat) (hi : i < c.cap) :
    ((c.n = c.cap ∨ c.assigned i = true →
        (assign c i).1 = true ∧ (assign c i).2 = c) ∧
      (c.n ≠ c.cap ∧ c.assigned i = false →
        (assign c i).1 = false ∧
        (assign c i).2.assigned i = true ∧
        (∀ j, j ≠ i → (assign c i).2.assigned j = c.assigned j) ∧
        stackList (assign c i).2 = stackList c ++ [i] ∧
        (assign c i).2.n = c.n + 1 ∧ (assign c i).2.cap = c.cap)) ∧
      ((assign (assign c i).2 i).1 = true ∧
        (assign (assign c i).2 i).2 = (assign c i).2) := by
  refine ⟨⟨?_, ?_⟩, ?_⟩
  · rintro (h | h)
    · simp [assign, h]
    · by_cases hn : c.n = c.cap
      · simp [assign, hn]
      · simp [assign, hn, h]
  · rintro ⟨hn, ha⟩
    refine ⟨by simp [assign, hn, ha], by simp [assign, hn, ha, upd_same], ?_,
      stackList_assign_insert c i hn ha, by simp [assign, hn, ha],
      by simp [assign, hn, ha]⟩
    intro j hj
    simp only [assign, hn, ha, Bool.false_eq_true, if_false, ite_false]
    exact upd_other _ _ _ _ hj
  · have key : ∀ (x : Coordinates), (x.n = x.cap ∨ x.assigned i = true) →
        assign x i = (true, x) := by
      intro x hx
      rcases hx with h | h
      · simp [assign, h]
      · by_cases hxn : x.n = x.cap
        · simp [assign, hxn]
        · simp [assign, hxn, h]
    have hcond : (assign c i).2.n = (assign c i).2.cap ∨
        (assign c i).2.assigned i = true := by
      by_cases hn : c.n = c.cap
      · left
        have he : (assign c i).2 = c := by simp [assign, hn]
        rw [he]
        exact hn
      · by_cases ha : c.assigned i = true
        · right
          have he : (assign c i).2 = c := by simp [assign, hn, ha]
          rw [he]
          exact ha
        · right
          simp [assign, hn, ha, upd_same]
    have he2 := key _ hcond
    exact ⟨by rw [he2], by rw [he2]⟩

/-- Witness for C4: a concrete double insert. -/
theorem C4_assign_cases_witness :
    (assign (assign (set (some (fun _ => false)) false (some (fun _ => 0)) 4) 2).2 2).1 =
      true :=
  (C4_assign_cases (set (some (fun _ => false)) false (some (fun _ => 0)) 4) 2
    (by decide)).2.1

set_option maxRecDepth 10000 in
/-- C7: after `clear()` the count is 0 and every presence flag below the
capacity is false, whether the previous state was dense (full presence
wipe) or sparse (walk over the compacted stack); in particular, clearing a
dense capacity-100 structure resets the count and all flags, and re-running
`local_assignAll` afterwards yields count 100 again. -/
theorem C7_clear_resets (c : Coordinates) (hInv : Inv c) :
    ((clear c).n = 0 ∧ (∀ i, i < c.cap → (clear c).assigned i = false)) ∧
    ((clear (local_assignAll
        (set (some (fun _ => false)) false (some (fun _ => 0)) 100))).n = 0 ∧
     (∀ i, i < 100 → (clear (local_assignAll
        (set (some (fun _ => false)) false (some (fun _ => 0)) 100))).assigned i =
          false) ∧
     (local_assignAll (clear (local_assignAll
        (set (some (fun _ => false)) false (some (fun _ => 0)) 100)))).n = 100) := by
  obtain ⟨h1, h2, -, -⟩ := clear_spec_aux c hInv
  exact ⟨⟨h1, h2⟩, by decide, by decide, by decide⟩

/-- Witness for C7: clearing a concrete sparse structure. -/
theorem C7_clear_resets_witness :
    (clear (runAssigns [0, 2]
      (set (some (fun _ => false)) false (some (fun _ => 0)) 3))).n = 0 :=
  (C7_clear_resets (runAssigns [0, 2]
    (set (some (fun _ => false)) false (some (fun _ => 0)) 3)) (by decide)).1.1

/-- C9: whenever `count = capacity`, `isDense()` returns true and
`index(k) = k` for every `k < count`, independently of the order in which
indices were pushed on the compacted stack. -/
theorem C9_dense_index (c : Coordinates) (h : c.n = c.cap) :
    isDense c = true ∧ ∀ k, k < c.n → index c k = k := by
  constructor
  · simp [isDense, h]
  · intro k hk
    simp [index, h]

/-- Witness for C9: a structure filled in non-sorted order. -/
theorem C9_dense_index_witness :
    isDense (runAssigns [1, 0]
      (set (some (fun _ => false)) false (some (fun _ => 0)) 2)) = true :=
  (C9_dense_index (runAssigns [1, 0]
    (set (some (fun _ => false)) false (some (fun _ => 0)) 2)) (by decide)).1

/-- C10 (implicit): binding memory with `set(arr, false, buf, dim)` always
produces an empty structure — count 0 and every presence flag below `dim`
written false regardless of the prior contents of the caller-supplied
memory — and the degenerate call `set(nullptr, b, nullptr, 0)` resets the
structure to capacity 0 and count 0. -/
theorem C10_set_binds_empty (mem : Nat → Bool) (bufMem : Nat → Nat) (dim : Nat)
    (b : Bool) :
    ((set (some mem) false (some bufMem) dim).n = 0 ∧
      (set (some mem) false (some bufMem) dim).cap = dim ∧
      (∀ i, i < dim → (set (some mem) false (some bufMem) dim).assigned i = false)) ∧
    ((set none b none 0).cap = 0 ∧ (set none b none 0).n = 0) := by
  obtain ⟨-, h2, h3, h4⟩ := set_fresh_Inv mem bufMem dim
  exact ⟨⟨h2, h3, h4⟩, rfl, rfl⟩

/-- Witness for C10: binding over dirty memory. -/
theorem C10_set_binds_empty_witness :
    (set (some (fun _ => true)) false (some (fun _ => 7)) 5).n = 0 :=
  (C10_set_binds_empty (fun _ => true) (fun _ => 7) 5 true).1.1

/-- C5: on a state satisfying the invariant, `asyncSubsetInit(lower, upper)`
leaves the tile's local stack holding exactly the offsets of the already
present indices of `[lower, upper)` (duplicate-free, with `*local_nnzs`
holding their number) and zeroes the tile's new-nonzero counter; the two
scan strategies produce the same set of local-stack contents. -/
theorem C5_subset_init (ts : Nat) (s : PState) (lower upper : Nat)
    (hInv : Inv s.glob) (hcap : 0 < s.glob.cap) (hlh : lower ≤ upper)
    (hup : upper ≤ s.glob.cap) :
    ((asyncSubsetInitP ts s lower upper).locStk (lower / ts)).Nodup ∧
      (∀ x, x ∈ (asyncSubsetInitP ts s lower upper).locStk (lower / ts) ↔
        (∃ i, lower ≤ i ∧ i < upper ∧ s.glob.assigned i = true ∧ x = i - lower)) ∧
      (asyncSubsetInitP ts s lower upper).newNnzs (lower / ts) = 0 ∧
      (asyncSubsetInitP ts s lower upper).locInit (lower / ts) =
        ((asyncSubsetInitP ts s lower upper).locStk (lower / ts)).length ∧
      (∀ x, x ∈ scanRangeL s.glob lower upper ↔ x ∈ scanStackL s.glob lower upper) := by
  have hc0 : ¬ s.glob.cap = 0 := by omega
  have hstk : (asyncSubsetInitP ts s lower upper).locStk (lower / ts) =
      asyncSubsetInitL s.glob lower upper := by
    simp only [asyncSubsetInitP, hc0, if_neg, ite_false]
    exact upd_same _ _ _
  have hnew : (asyncSubsetInitP ts s lower upper).newNnzs (lower / ts) = 0 := by
    simp only [asyncSubsetInitP, hc0, if_neg, ite_false]
    exact upd_same _ _ _
  have hinit : (asyncSubsetInitP ts s lower upper).locInit (lower / ts) =
      (asyncSubsetInitL s.glob lower upper).length := by
    simp only [asyncSubsetInitP, hc0, if_neg, ite_false]
    exact upd_same _ _ _
  obtain ⟨hnd, hbd, hmem⟩ := asyncSubsetInitL_spec s.glob lower upper hInv hlh hup
  refine ⟨by rw [hstk]; exact hnd, ?_, hnew, by rw [hstk, hinit],
    scan_strategies_agree s.glob lower upper hInv hlh hup⟩
  intro x
  rw [hstk]
  constructor
  · intro hx
    have hxw := hbd x hx
    have := (hmem x hxw).mp hx
    exact ⟨lower + x, by omega, by omega, this, by omega⟩
  · rintro ⟨i, h1, h2, h3, rfl⟩
    apply (hmem (i - lower) (by omega)).mpr
    have hofs : lower + (i - lower) = i := by omega
    rw [hofs]
    exact h3

/-- Witness for C5: tile `[2, 4)` of a concrete state. -/
theorem C5_subset_init_witness :
    (asyncSubsetInitP 2
      { glob := runAssigns [3, 1] (set (some (fun _ => false)) false (some (fun _ => 0)) 8),
        locStk := fun _ => [], locInit := fun _ => 0, newNnzs := fun _ => 9,
        pref := fun _ => 0 } 2 4).newNnzs 1 = 0 :=
  (C5_subset_init 2
    { glob := runAssigns [3, 1] (set (some (fun _ => false)) false (some (fun _ => 0)) 8),
      locStk := fun _ => [], locInit := fun _ => 0, newNnzs := fun _ => 9,
      pref := fun _ => 0 } 2 4 (by decide) (by decide) (by decide) (by decide)).2.2.1

/-- C6: `asyncJoinSubset` stores the view count minus the tile's
pre-existing local count into the tile's new-nonzero counter and changes
nothing else — the global structure, the prefix-sum slots and every other
tile's scratch are untouched. -/
theorem C6_commit_frame (ts : Nat) (s : PState) (viewN lower upper : Nat)
    (h : s.locInit (lower / ts) ≤ viewN) :
    (asyncJoinSubsetP ts s viewN lower upper).newNnzs (lower / ts) +
        s.locInit (lower / ts) = viewN ∧
      (asyncJoinSubsetP ts s viewN lower upper).glob = s.glob ∧
      (asyncJoinSubsetP ts s viewN lower upper).locStk = s.locStk ∧
      (asyncJoinSubsetP ts s viewN lower upper).locInit = s.locInit ∧
      (asyncJoinSubsetP ts s viewN lower upper).pref = s.pref ∧
      (∀ u, u ≠ lower / ts →
        (asyncJoinSubsetP ts s viewN lower upper).newNnzs u = s.newNnzs u) := by
  refine ⟨?_, rfl, rfl, rfl, rfl, ?_⟩
  · show upd s.newNnzs (lower / ts) (viewN - s.locInit (lower / ts)) (lower / ts) +
      s.locInit (lower / ts) = viewN
    rw [upd_same]
    omega
  · intro u hu
    exact upd_other _ _ _ _ hu

/-- Witness for C6. -/
theorem C6_commit_frame_witness :
    (asyncJoinSubsetP 2 scenScr 3 2 4).newNnzs 1 + scenScr.locInit 1 = 3 :=
  (C6_commit_frame 2 scenScr 3 2 4 (by decide)).1

/-- Episode state together with buffer validity, for the zero-capacity
analysis: `hasBuf` records whether `_stack`/`_buffer` are bound (they are
null after `set(nullptr, b, nullptr, 0)`), and `nTilesBound` is the size of
the `local_buffer` vector (zero unless `localCoordinatesInit` ran, which is
impossible at capacity 0 since its assertion `_buf >= 4 * num_tiles`
fails).  Operations return `none` where the source would fail an assertion
or access memory through an unbound pointer or an out-of-range
`local_buffer` element. -/
structure CState where
  st : PState
  hasBuf : Bool
  nTilesBound : Nat

/-- `asyncSubsetInit` with its explicit `if( _cap == 0 ) return;` guard; the
non-degenerate path reads `local_buffer[tile_id]`. -/
def asyncSubsetInitOpt (ts : Nat) (c : CState) (lower upper : Nat) :
    Option CState :=
  if c.st.glob.cap = 0 then some c
  else if lower / ts < c.nTilesBound then
    some { c with st := asyncSubsetInitP ts c.st lower upper }
  else none

/-- `asyncSubset` has no zero-capacity guard: it asserts `_cap > 0` and
reads `local_buffer[tile_id]` unconditionally. -/
def asyncSubsetOpt (ts : Nat) (c : CState) (lower upper : Nat) :
    Option Coordinates :=
  if c.st.glob.cap = 0 then none
  else if lower / ts < c.nTilesBound then
    some { cap := upper - lower,
           n := c.st.locInit (lower / ts) + c.st.newNnzs (lower / ts),
           assigned := fun j => c.st.glob.assigned (lower + j),
           stack := fun k => (c.st.locStk (lower / ts)).getD k 0 }
  else none

/-- `asyncJoinSubset` likewise asserts `_cap > 0` and reads
`local_buffer[tile_id]` unconditionally. -/
def asyncJoinSubsetOpt (ts : Nat) (c : CState) (viewN lower upper : Nat) :
    Option CState :=
  if c.st.glob.cap = 0 then none
  else if lower / ts < c.nTilesBound then
    some { c with st := asyncJoinSubsetP ts c.st viewN lower upper }
  else none

/-- `newNonZeroes` with its explicit `if( _cap == 0 ) return false;` guard;
otherwise it scans `local_new_nnzs[0 .. num_tiles)`. -/
def newNonZeroesOpt (T : Nat) (c : CState) : Option Bool :=
  if c.st.glob.cap = 0 then some false
  else if c.hasBuf then
    some ((List.range T).any (fun t => decide (0 < c.st.newNnzs t)))
  else none

/-- `prefixSumComputation` has no zero-capacity guard: it reads
`local_new_nnzs` and writes `pref_sum` unconditionally, so it requires the
scratch buffer to be bound. -/
def prefSumOpt (T : Nat) (c : CState) : Option CState :=
  if c.hasBuf then some { c with st := prefSumP T c.st } else none

/-- `joinSubset` with its explicit `if( _cap == 0 ) return;` guard. -/
def joinSubsetOpt (ts : Nat) (c : CState) (lower upper : Nat) : Option CState :=
  if c.st.glob.cap = 0 then some c
  else if lower / ts < c.nTilesBound ∧ c.hasBuf = true then
    some { c with st := joinSubsetP ts c.st lower upper }
  else none

/-- A structure bound with `set(nullptr, b, nullptr, 0)`: capacity 0, no
buffers, no tiles bound. -/
def zeroCapState : CState :=
  { st := { glob := set none false none 0, locStk := fun _ => [],
            locInit := fun _ => 0, newNnzs := fun _ => 0, pref := fun _ => 0 },
    hasBuf := false, nTilesBound := 0 }

/-- Counterexample to C8 as stated: at capacity 0, `asyncSubset`,
`asyncJoinSubset` and `prefixSumComputation` are not no-ops — the first two
assert `_cap > 0` and index the unsized `local_buffer`, and the third
dereferences the unbound scratch pointers. -/
theorem C8_zero_capacity_counterexample :
    asyncSubsetOpt 1 zeroCapState 0 0 = none ∧
      asyncJoinSubsetOpt 1 zeroCapState 0 0 0 = none ∧
      prefSumOpt 1 zeroCapState = none :=
  ⟨rfl, rfl, rfl⟩

/-- C8 (amended): at capacity 0, `asyncSubsetInit`, `newNonZeroes` and
`joinSubset` are guarded no-ops that return (`false` where a value is
expected) without touching any buffer, but `asyncSubset` and
`asyncJoinSubset` assert a positive capacity and `prefixSumComputation`
reads the per-tile counters unconditionally, so on a zero-capacity
structure with unbound buffers these three fault instead of being no-ops. -/
theorem C8_zero_capacity_guards (ts T viewN lower upper : Nat) (c : CState)
    (hcap : c.st.glob.cap = 0) :
    asyncSubsetInitOpt ts c lower upper = some c ∧
      newNonZeroesOpt T c = some false ∧
      joinSubsetOpt ts c lower upper = some c ∧
      asyncSubsetOpt ts c lower upper = none ∧
      asyncJoinSubsetOpt ts c viewN lower upper = none ∧
      (c.hasBuf = false → prefSumOpt T c = none) := by
  refine ⟨?_, ?_, ?_, ?_, ?_, ?_⟩
  · simp [asyncSubsetInitOpt, hcap]
  · simp [newNonZeroesOpt, hcap]
  · simp [joinSubsetOpt, hcap]
  · simp [asyncSubsetOpt, hcap]
  · simp [asyncJoinSubsetOpt, hcap]
  · intro hb
    simp [prefSumOpt, hb]

/-- Witness for the amended C8 at the degenerate bound state. -/
theorem C8_zero_capacity_guards_witness :
    asyncSubsetInitOpt 1 zeroCapState 0 0 = some zeroCapState :=
  (C8_zero_capacity_guards 1 1 0 0 0 zeroCapState rfl).1

end NB
